import Mathlib

/-!
# Verification of the aliyundrive-fuse core against its specification

Shallow embedding of the repository's Rust sources:

* `src/file_cache.rs` — the per-handle read cache (`FileCache`);
* `src/vfs.rs`        — the FUSE adaptor (`AliyunDriveFileSystem`);
* `src/drive/mod.rs`  — the drive client's retry envelope (`AliyunDrive::request`)
  and the token-refresh retry loop (`do_refresh_token_with_retry`).

Rust `BTreeMap`s are embedded as key-sorted association lists, `u64`/`u32`/`i64`
values as `Nat`/`Int` with explicit `% 2^64` / `% 2^32` truncation at the points
where the source casts, and network traffic as explicit oracle functions plus an
event log recording the requests the code issues.
-/

set_option maxHeartbeats 1000000

namespace AliyunFuse

/-! ## Key-sorted association lists, the embedding of Rust's `BTreeMap`

`alookup` is `BTreeMap::get` (first matching key), `aerase` is
`BTreeMap::remove`, and `ainsert` is `BTreeMap::insert`: on a key-sorted,
duplicate-free list it places the new pair at its sorted position, replacing
any previous binding, so iteration order (`avalues`, `akeys`) is ascending
key order exactly as for `BTreeMap`. -/

variable {K V : Type} [DecidableEq K]

def alookup (k : K) : List (K × V) → Option V
  | [] => none
  | (k', v) :: t => if k = k' then some v else alookup k t

/-- `BTreeMap::remove`: drop every entry whose key is `k`
(on duplicate-free input that is the single binding of `k`). -/
def aerase (k : K) : List (K × V) → List (K × V)
  | [] => []
  | (k', v) :: t => if k' = k then aerase k t else (k', v) :: aerase k t

/-- Insert `(k, v)` in front of the first entry whose key is `≥ k`
(w.r.t. the strict order `ltb`). -/
def aplace (ltb : K → K → Bool) (k : K) (v : V) : List (K × V) → List (K × V)
  | [] => [(k, v)]
  | (k', v') :: t =>
    if ltb k k' then (k, v) :: (k', v') :: t else (k', v') :: aplace ltb k v t

def ainsert (ltb : K → K → Bool) (k : K) (v : V) (m : List (K × V)) : List (K × V) :=
  aplace ltb k v (aerase k m)

def acontains (k : K) (m : List (K × V)) : Bool :=
  (alookup k m).isSome

def akeys (m : List (K × V)) : List K := m.map Prod.fst

def avalues (m : List (K × V)) : List V := m.map Prod.snd

theorem alookup_aerase_self (k : K) (m : List (K × V)) :
    alookup k (aerase k m) = none := by
  induction m with
  | nil => rfl
  | cons p t ih =>
    obtain ⟨k', v'⟩ := p
    by_cases h : k' = k
    · simp [aerase, h, ih]
    · simp only [aerase, if_neg h, alookup, ih, ite_eq_right_iff]
      intro hk; exact absurd hk.symm h

theorem alookup_aerase_ne {k k' : K} (h : k' ≠ k) (m : List (K × V)) :
    alookup k' (aerase k m) = alookup k' m := by
  induction m with
  | nil => rfl
  | cons p t ih =>
    obtain ⟨k₀, v₀⟩ := p
    by_cases h₀ : k₀ = k
    · subst h₀
      simp [aerase, ih, alookup, h]
    · simp only [aerase, if_neg h₀, alookup, ih]

theorem alookup_aplace_self (ltb : K → K → Bool) (k : K) (v : V) (m : List (K × V))
    (hnone : alookup k m = none) :
    alookup k (aplace ltb k v m) = some v := by
  induction m with
  | nil => simp [aplace, alookup]
  | cons p t ih =>
    obtain ⟨k', v'⟩ := p
    simp only [alookup] at hnone
    by_cases hk : k = k'
    · simp [hk] at hnone
    · simp only [if_neg hk] at hnone
      simp only [aplace]
      by_cases hlt : ltb k k'
      · simp [hlt, alookup]
      · simp [hlt, alookup, if_neg hk, ih hnone]

theorem alookup_aplace_ne (ltb : K → K → Bool) {k k' : K} (h : k' ≠ k) (v : V)
    (m : List (K × V)) :
    alookup k' (aplace ltb k v m) = alookup k' m := by
  induction m with
  | nil => simp [aplace, alookup, if_neg h]
  | cons p t ih =>
    obtain ⟨k₀, v₀⟩ := p
    simp only [aplace]
    by_cases hlt : ltb k k₀
    · simp [hlt, alookup, if_neg h]
    · simp only [if_neg hlt, alookup, ih]

theorem alookup_ainsert_self (ltb : K → K → Bool) (k : K) (v : V) (m : List (K × V)) :
    alookup k (ainsert ltb k v m) = some v :=
  alookup_aplace_self ltb k v _ (alookup_aerase_self k m)

theorem alookup_ainsert_ne (ltb : K → K → Bool) {k k' : K} (h : k' ≠ k) (v : V)
    (m : List (K × V)) :
    alookup k' (ainsert ltb k v m) = alookup k' m := by
  unfold ainsert
  rw [alookup_aplace_ne ltb h, alookup_aerase_ne h]

theorem alookup_ainsert (ltb : K → K → Bool) (k k' : K) (v : V) (m : List (K × V)) :
    alookup k' (ainsert ltb k v m) = if k' = k then some v else alookup k' m := by
  by_cases h : k' = k
  · subst h; simp [alookup_ainsert_self]
  · simp [h, alookup_ainsert_ne ltb h]

/-- The strict orders used for the two key types of the embedding. -/
def natLtb (a b : Nat) : Bool := decide (a < b)

def strLtb (a b : String) : Bool := decide (a < b)

/-! ## Machine-integer casts -/

/-- `i as u64` / `i as usize` (64-bit) on an `i64` value: two's-complement
truncation to `[0, 2^64)`. -/
def toU64 (i : Int) : Nat := (i.emod (2 ^ 64)).toNat

theorem toU64_ofNat {n : Nat} (h : n < 2 ^ 64) : toU64 (n : Int) = n := by
  unfold toU64
  have he : ((n : Int)).emod (2 ^ 64) = (n : Int) :=
    Int.emod_eq_of_lt (by positivity) (by exact_mod_cast h)
  rw [he]
  simp

/-! ## Data model

`src/drive/model.rs` is not among the provided sources; the record shapes
below are modelled from the specification. -/

/-- Modelled from the spec: missing `src/drive/model.rs` `FileType`;
§3 "Remote file record": `type ∈ {Folder, File}`. -/
inductive FType
  | folder
  | file
  deriving DecidableEq, Repr

/-- `fuser::FileType` as far as this adaptor uses it (`src/vfs.rs`). -/
inductive FuseFileType
  | directory
  | regularFile
  deriving DecidableEq, Repr

/-- `impl From<crate::drive::FileType> for FileType` (`src/vfs.rs`):
Folder ↦ Directory, File ↦ RegularFile. -/
def FType.toFuse : FType → FuseFileType
  | .folder => .directory
  | .file => .regularFile

/-- Modelled from the spec: missing `src/drive/model.rs` `AliyunFile`;
§3 "Remote file record": stable `file_id` (opaque string), `name`,
`type`, `size` (u64; 0 for folders). The timestamp fields are not read by
any code a claim mentions and are omitted. -/
structure AliyunFile where
  id : String
  name : String
  type : FType
  size : Nat
  deriving DecidableEq, Repr

/-- Modelled from the spec: missing `AliyunFile::new_root`;
§4.5 `init()`: "Create the root file record with a fixed name, type Folder,
empty id". -/
def AliyunFile.newRoot : AliyunFile :=
  { id := "", name := "root", type := .folder, size := 0 }

/-- `src/error.rs` `Error`. `NoEntry`, `ParentNotFound` and `ChildNotFound`
map to `ENOENT`; `ApiCallFailed` maps to `EIO`. -/
inductive Error
  | noEntry
  | parentNotFound
  | childNotFound
  | apiCallFailed
  deriving DecidableEq, Repr

/-- The `libc` error codes the adaptor can reply with. -/
def Error.toErrno : Error → Nat
  | .noEntry => 2
  | .parentNotFound => 2
  | .childNotFound => 2
  | .apiCallFailed => 5

/-! ## Network oracle and event log

The embedded code's network calls are resolved by an oracle (`none` models a
failed call) and recorded in an event log, so that theorems can talk about
which requests an operation issues. -/

inductive Ev
  | getDownloadUrl (fileId : String)
  | download (url : String) (startPos : Nat) (size : Nat)
  | listAll (parentFileId : String)
  | getQuota
  deriving DecidableEq, Repr

structure DriveOracle where
  getDownloadUrl : String → Option String
  download : String → Nat → Nat → Option (List Nat)
  listAll : String → Option (List AliyunFile)
  getQuota : Option (Nat × Nat)

/-! ## `src/file_cache.rs` — the per-handle read cache -/

/-- `CachedFile`: one handle's record. `buffer` is the `Bytes` buffer as a
list of byte values; `start_pos` is the `i64` field. -/
structure CachedFile where
  file_id : String
  file_size : Nat
  start_pos : Int
  buffer : List Nat
  deriving DecidableEq, Repr

/-- `FileCache`: `read_buffer_size` plus the `BTreeMap<u64, CachedFile>`.
(The `drive` field is replaced by the explicit `DriveOracle` arguments.) -/
structure FileCache where
  read_buffer_size : Nat
  cache : List (Nat × CachedFile)
  deriving DecidableEq, Repr

/-- `FileCache::read_chunk`. `size` is
`min(self.read_buffer_size, file_size.saturating_sub(offset as u64) as usize)`
(Nat subtraction is saturating). Returns the downloaded bytes and the
network requests issued. -/
def FileCache.read_chunk (fc : FileCache) (o : DriveOracle) (file_id : String)
    (file_size : Nat) (offset : Int) : Option (List Nat) × List Ev :=
  let size := min fc.read_buffer_size (file_size - toU64 offset)
  match o.getDownloadUrl file_id with
  | none => (none, [Ev.getDownloadUrl file_id])
  | some url =>
    match o.download url (toU64 offset) size with
    | none => (none, [Ev.getDownloadUrl file_id, Ev.download url (toU64 offset) size])
    | some data => (some data, [Ev.getDownloadUrl file_id, Ev.download url (toU64 offset) size])

/-- `FileCache::read`. `size` is the `u32` argument's value. On a buffer hit
the slice `buffer[offset - start_pos .. offset - start_pos + size]` is
returned (a `slice(a..a+size)` is `drop a` then `take size`); on a miss the
fetched chunk replaces the buffer, `start_pos` becomes `offset`, and the
first `min(size, chunk.len())` bytes of the chunk are returned. -/
def FileCache.read (fc : FileCache) (o : DriveOracle) (fh : Nat) (offset : Int)
    (size : Nat) : Except Error (List Nat) × FileCache × List Ev :=
  match alookup fh fc.cache with
  | none => (.error .noEntry, fc, [])
  | some cached =>
    let start_pos := cached.start_pos
    let end_pos := offset + (size : Int)
    let buf_size := cached.buffer.length
    if offset ≥ start_pos ∧ end_pos ≤ start_pos + (buf_size : Int) then
      let buf_start := (offset - start_pos).toNat
      let data := (cached.buffer.drop buf_start).take size
      (.ok data, fc, [])
    else
      match fc.read_chunk o cached.file_id cached.file_size offset with
      | (none, evs) => (.error .apiCallFailed, fc, evs)
      | (some chunk, evs) =>
        let new_cached : CachedFile :=
          { file_id := cached.file_id, file_size := cached.file_size,
            start_pos := offset, buffer := chunk }
        let fc' := { fc with cache := ainsert natLtb fh new_cached fc.cache }
        let n := if chunk.length ≥ size then size else chunk.length
        (.ok (chunk.take n), fc', evs)

/-- `FileCache::open`: insert a record with empty buffer and `start_pos = 0`. -/
def FileCache.openHandle (fc : FileCache) (fh : Nat) (file_id : String)
    (file_size : Nat) : FileCache :=
  let file : CachedFile :=
    { file_id := file_id, file_size := file_size, start_pos := 0, buffer := [] }
  { fc with cache := ainsert natLtb fh file fc.cache }

/-- `FileCache::release`: remove the record. -/
def FileCache.release (fc : FileCache) (fh : Nat) : FileCache :=
  { fc with cache := aerase fh fc.cache }

/-! ## `src/vfs.rs` — the FUSE adaptor -/

def FUSE_ROOT_ID : Nat := 1

/-- `Inode`: `children: BTreeMap<OsString, u64>` (names embedded as strings,
iteration = ascending name order) plus `parent: u64`. -/
structure Inode where
  children : List (String × Nat)
  parent : Nat
  deriving DecidableEq, Repr

/-- `Inode::new`. -/
def Inode.new (parent : Nat) : Inode :=
  { children := [], parent := parent }

/-- `Inode::add_child`. -/
def Inode.add_child (i : Inode) (name : String) (inode : Nat) : Inode :=
  { i with children := ainsert strLtb name inode i.children }

/-- `AliyunDriveFileSystem` state: the two `BTreeMap`s keyed by inode
number, the two allocator counters, and the read cache. -/
structure FSState where
  file_cache : FileCache
  files : List (Nat × AliyunFile)
  inodes : List (Nat × Inode)
  next_inode : Nat
  next_fh : Nat
  deriving Repr

/-- `AliyunDriveFileSystem::new`: counters start at 1 (inodes) and 2 (fhs). -/
def FSState.new (read_buffer_size : Nat) : FSState :=
  { file_cache := { read_buffer_size := read_buffer_size, cache := [] }
    files := [], inodes := [], next_inode := 1, next_fh := 2 }

/-- `AliyunDriveFileSystem::next_inode`: `wrapping_add(1)`, then return the
new value. -/
def FSState.nextInode (s : FSState) : Nat × FSState :=
  let n := (s.next_inode + 1) % 2 ^ 64
  (n, { s with next_inode := n })

/-- `AliyunDriveFileSystem::next_fh`: `wrapping_add(1)`, then return the new
value. -/
def FSState.nextFh (s : FSState) : Nat × FSState :=
  let n := (s.next_fh + 1) % 2 ^ 64
  (n, { s with next_fh := n })

/-- `AliyunDriveFileSystem::init`: fetch the quota, build the root file
record with `size = used_size`, install root inode (parent 0) and root file
record at `FUSE_ROOT_ID`. -/
def FSState.init (s : FSState) (o : DriveOracle) :
    Except Error Unit × FSState × List Ev :=
  match o.getQuota with
  | none => (.error .apiCallFailed, s, [Ev.getQuota])
  | some q =>
    let root_file := { AliyunFile.newRoot with size := q.1 }
    let root_inode := Inode.new 0
    (.ok (),
      { s with inodes := ainsert natLtb FUSE_ROOT_ID root_inode s.inodes,
               files := ainsert natLtb FUSE_ROOT_ID root_file s.files },
      [Ev.getQuota])

/-! The `offset == 0` body of `readdir` mutates, in order: the local clone
`inode` of the directory's entry, the global `files` and `inodes` maps, the
inode counter and the local `to_remove` list. The two loops are embedded as
folds so they can be reasoned about by list induction. -/

/-- Intermediate state of the `for file in &files` reconciliation loop. -/
structure AddSt where
  node : Inode
  files : List (Nat × AliyunFile)
  inodes : List (Nat × Inode)
  next_inode : Nat
  to_remove : List String
  deriving Repr

/-- One iteration of the `for file in &files` loop of `readdir`:
a name already present is retained (dropped from `to_remove`); otherwise a
new inode number is allocated, the child link added, the file record stored
and an empty inode entry created (`entry(..).or_insert_with`). -/
def addStep (ino : Nat) (st : AddSt) (f : AliyunFile) : AddSt :=
  let name := f.name
  if acontains name st.node.children then
    { st with to_remove := st.to_remove.filter (fun n => decide (n ≠ name)) }
  else
    let new_inode := (st.next_inode + 1) % 2 ^ 64
    { node := st.node.add_child name new_inode
      files := ainsert natLtb new_inode f st.files
      inodes :=
        if acontains new_inode st.inodes then st.inodes
        else ainsert natLtb new_inode (Inode.new ino) st.inodes
      next_inode := new_inode
      to_remove := st.to_remove }

def addPhase (ino : Nat) (listing : List AliyunFile) (st : AddSt) : AddSt :=
  listing.foldl (addStep ino) st

/-- Intermediate state of the `for name in to_remove` loop. -/
structure RemSt where
  node : Inode
  files : List (Nat × AliyunFile)
  inodes : List (Nat × Inode)
  deriving Repr

/-- One iteration of the removal loop: `children.remove(&name)` and, when a
binding existed, removal of the stale inode's file record and inode entry. -/
def remStep (st : RemSt) (name : String) : RemSt :=
  match alookup name st.node.children with
  | some ino_remove =>
    { node := { st.node with children := aerase name st.node.children }
      files := aerase ino_remove st.files
      inodes := aerase ino_remove st.inodes }
  | none => st

def remPhase (names : List String) (st : RemSt) : RemSt :=
  names.foldl remStep st

/-- The emission loop of `readdir`: each child inode is resolved in `files`
(`ChildNotFound` aborts) and emitted as `(inode, kind, name)`. -/
def emitChildren (files : List (Nat × AliyunFile)) :
    List Nat → Except Error (List (Nat × FuseFileType × String))
  | [] => .ok []
  | c :: rest =>
    match alookup c files with
    | none => .error .childNotFound
    | some f =>
      match emitChildren files rest with
      | .error e => .error e
      | .ok es => .ok ((c, f.type.toFuse, f.name) :: es)

/-- `AliyunDriveFileSystem::readdir`. At `offset == 0` the directory is
re-listed and reconciled before emission of `.`, `..` and the children; at
`offset != 0` the children are emitted starting at index `offset as usize`
with no network traffic and no store mutation. Mutations performed before
an emission failure persist, as in the source. -/
def FSState.readdir (s : FSState) (o : DriveOracle) (ino : Nat) (offset : Int) :
    Except Error (List (Nat × FuseFileType × String)) × FSState × List Ev :=
  match alookup ino s.inodes with
  | none => (.error .noEntry, s, [])
  | some inode0 =>
    if offset = 0 then
      match alookup ino s.files with
      | none => (.error .noEntry, s, [])
      | some file =>
        match o.listAll file.id with
        | none => (.error .apiCallFailed, s, [Ev.listAll file.id])
        | some listing =>
          let st1 := addPhase ino listing
            { node := inode0, files := s.files, inodes := s.inodes,
              next_inode := s.next_inode, to_remove := akeys inode0.children }
          let st2 := remPhase st1.to_remove
            { node := st1.node, files := st1.files, inodes := st1.inodes }
          let s' : FSState :=
            { s with files := st2.files,
                     inodes := ainsert natLtb ino st2.node st2.inodes,
                     next_inode := st1.next_inode }
          let head := [(ino, FuseFileType.directory, "."),
                       (inode0.parent, FuseFileType.directory, "..")]
          match emitChildren st2.files (avalues st2.node.children) with
          | .error e => (.error e, s', [Ev.listAll file.id])
          | .ok es => (.ok (head ++ es), s', [Ev.listAll file.id])
    else
      match emitChildren s.files ((avalues inode0.children).drop (toU64 offset)) with
      | .error e => (.error e, s, [])
      | .ok es => (.ok es, s, [])

/-- The child-resolution tail of `lookup` (after the lazy population). -/
def lookupChild (pinode : Inode) (files : List (Nat × AliyunFile)) (name : String) :
    Except Error (Nat × AliyunFile) :=
  match alookup name pinode.children with
  | none => .error .childNotFound
  | some inode =>
    match alookup inode files with
    | none => .error .noEntry
    | some f => .ok (inode, f)

/-- `AliyunDriveFileSystem::lookup`: unknown parent fails; an empty
`children` map triggers `readdir(parent, 0)` (whose effects persist even if
the subsequent resolution fails), then the child is resolved. -/
def FSState.lookup (s : FSState) (o : DriveOracle) (parent : Nat) (name : String) :
    Except Error (Nat × AliyunFile) × FSState × List Ev :=
  match alookup parent s.inodes with
  | none => (.error .parentNotFound, s, [])
  | some parent_inode =>
    if parent_inode.children = [] then
      match s.readdir o parent 0 with
      | (.error e, s', evs) => (.error e, s', evs)
      | (.ok _, s', evs) =>
        match alookup parent s'.inodes with
        | none => (.error .parentNotFound, s', evs)
        | some parent_inode' => (lookupChild parent_inode' s'.files name, s', evs)
    else
      (lookupChild parent_inode s.files name, s, [])

/-- `AliyunDriveFileSystem::read`: `ENOENT` when the inode is unknown;
`offset ≥ size` returns an empty buffer with no cache access; otherwise the
`u32` size is clamped by
`min(size, file.size.saturating_sub(offset as u64) as u32)` and the read is
delegated to the cache. -/
def FSState.read (s : FSState) (o : DriveOracle) (ino fh : Nat) (offset : Int)
    (size : Nat) : Except Error (List Nat) × FSState × List Ev :=
  match alookup ino s.files with
  | none => (.error .noEntry, s, [])
  | some file =>
    if offset ≥ (file.size : Int) then
      (.ok [], s, [])
    else
      let size' := min size ((file.size - toU64 offset) % 2 ^ 32)
      match s.file_cache.read o fh offset size' with
      | (r, fc', evs) => (r, { s with file_cache := fc' }, evs)

/-- `Filesystem::getattr`: the file record at `ino`, or `ENOENT`. -/
def FSState.getattr (s : FSState) (ino : Nat) : Except Error AliyunFile :=
  match alookup ino s.files with
  | none => .error .noEntry
  | some f => .ok f

/-- `Filesystem::open`: `ENOENT` when the inode is unknown; otherwise a
file handle is drawn from `next_fh` and registered with the read cache. -/
def FSState.openFile (s : FSState) (ino : Nat) : Except Error Nat × FSState :=
  match alookup ino s.files with
  | none => (.error .noEntry, s)
  | some f =>
    let p := s.nextFh
    (.ok p.1, { p.2 with file_cache := p.2.file_cache.openHandle p.1 f.id f.size })

/-- `Filesystem::release`: drop the handle from the read cache; always
succeeds. -/
def FSState.releaseFile (s : FSState) (fh : Nat) : FSState :=
  { s with file_cache := s.file_cache.release fh }

/-- `Filesystem::readdir`: entries are pushed to the kernel with next-cookie
`offset_add + i` where `offset_add = 0` for a fresh listing and
`offset + 1` for a continuation. The kernel reply buffer is modelled as
never full. -/
def FSState.readdirOuter (s : FSState) (o : DriveOracle) (ino : Nat) (offset : Int) :
    Except Error (List (Nat × Int × FuseFileType × String)) × FSState × List Ev :=
  match s.readdir o ino offset with
  | (.error e, s', evs) => (.error e, s', evs)
  | (.ok entries, s', evs) =>
    let offset_add : Int := if offset = 0 then 0 else offset + 1
    (.ok (entries.enum.map (fun p => (p.2.1, offset_add + (p.1 : Int), p.2.2.1, p.2.2.2))),
      s', evs)

/-! ## `src/drive/mod.rs` — the retry/re-auth envelope (`AliyunDrive::request`) -/

/-- Observable outcome of one `send()` / `error_for_status()` pair: a
transport failure (`send()` itself errs; no status exists, `err.status()`
is `None`), or a final HTTP status. `error_for_status` fails exactly on
statuses in 400–599. -/
inductive SendRes
  | transport
  | status (code : Nat)
  deriving DecidableEq, Repr

inductive ReqErr
  | missingToken
  | transportErr
  | httpErr (code : Nat)
  | refreshFailed
  deriving DecidableEq, Repr

inductive ReqEv
  | send (token : String)
  | refresh
  | sleep
  deriving DecidableEq, Repr

/-- Interpretation of the resend (`send()?.error_for_status()?` then the
`NO_CONTENT` check): `Ok(None)` on 204, `Ok(Some _)` otherwise; every
failure is surfaced. -/
def finishSend : SendRes → Except ReqErr (Option Unit)
  | .transport => .error .transportErr
  | .status c =>
    if c < 400 then .ok (if c = 204 then none else some ()) else .error (.httpErr c)

/-- The sleep-and-resend statuses of the envelope's big `match`, 401 aside:
408, 429, 500, 502, 503, 504. -/
def retryStatuses : List Nat := [408, 429, 500, 502, 503, 504]

/-- Network oracle for one `request` call: result of the first send, result
of `do_refresh_token_with_retry(None)` (the new access token, or `none` on
failure), result of the second send if one happens. -/
structure ReqOracle where
  first : SendRes
  refreshTok : Option String
  second : SendRes

/-- `AliyunDrive::request`: send with the current access token; on 401
refresh and resend once with the new token; on 408/429/500/502/503/504
sleep 1 s and resend once with the same token; surface anything else
immediately; surface any failure of the single resend. -/
def request (accessToken : Option String) (o : ReqOracle) :
    Except ReqErr (Option Unit) × List ReqEv :=
  match accessToken with
  | none => (.error .missingToken, [])
  | some tok =>
    match o.first with
    | .transport => (.error .transportErr, [.send tok])
    | .status c =>
      if c < 400 then
        (.ok (if c = 204 then none else some ()), [.send tok])
      else if c = 401 then
        match o.refreshTok with
        | none => (.error .refreshFailed, [.send tok, .refresh])
        | some tok' => (finishSend o.second, [.send tok, .refresh, .send tok'])
      else if c ∈ retryStatuses then
        (finishSend o.second, [.send tok, .sleep, .send tok])
      else
        (.error (.httpErr c), [.send tok])

/-! ## `src/drive/mod.rs` — `do_refresh_token_with_retry` -/

/-- Observable class of a failed `do_refresh_token` attempt: the three
predicates the retry decision reads from the underlying `reqwest` error
(`is_connect()`, `is_timeout()`, `status()`); a non-`reqwest` error has all
three falsy (`downcast_ref` returns `None`). -/
structure RefreshErr where
  is_connect : Bool
  is_timeout : Bool
  status : Option Nat
  deriving DecidableEq, Repr

/-- Modelled from the spec: missing `src/drive/model.rs`
`RefreshTokenResponse`; §3 "Refresh response": fields `refresh_token`,
`access_token`, `expires_in`, `default_drive_id`, `nick_name`. -/
structure RefreshTokenResponse where
  refresh_token : String
  access_token : String
  expires_in : Nat
  default_drive_id : String
  nick_name : String
  deriving DecidableEq, Repr

inductive RefreshOutcome
  | success (res : RefreshTokenResponse)
  | failure (e : RefreshErr)
  deriving DecidableEq, Repr

/-- One attempt as recorded in the trace: the refresh token it was made
with, its outcome, and whether a `warn!` was logged for it. -/
structure Att where
  token : String
  outcome : RefreshOutcome
  warned : Bool
  deriving DecidableEq, Repr

/-- The retry condition of `do_refresh_token_with_retry`:
`e.is_connect() || e.is_timeout() || matches!(e.status(), Some(429))`. -/
def retryableErr (e : RefreshErr) : Bool :=
  e.is_connect || e.is_timeout || decide (e.status = some 429)

/-- The bootstrap-swap condition of `do_refresh_token_with_retry`:
`refresh_token_from_file` is available, the failure is not retryable by
itself, and the token just tried differs from the (untrimmed) file token. -/
def swapCond (fromFile : Option String) (retry0 : Bool) (tok : String) : Bool :=
  match fromFile with
  | some ftok => !retry0 && decide (tok ≠ ftok)
  | none => false

/-- The `for _ in 0..10` loop of `do_refresh_token_with_retry` with `fuel`
iterations left. `oracle k tok` is the result of attempt number `k` when
made with refresh token `tok`; `fromFile` is the `refresh_token_from_file`
argument; `last` is `last_err`. Exhausted fuel returns
`Err(last_err.unwrap())` (the `getD` default is unreachable from the real
entry point, where at least one iteration runs before fuel can reach 0). -/
def refreshLoop (oracle : Nat → String → RefreshOutcome) (fromFile : Option String) :
    Nat → Nat → String → Option RefreshErr →
      Except RefreshErr RefreshTokenResponse × List Att
  | 0, _, _, last => (.error (last.getD { is_connect := false, is_timeout := false, status := none }), [])
  | fuel + 1, k, tok, _last =>
    match oracle k tok with
    | .success res => (.ok res, [{ token := tok, outcome := .success res, warned := false }])
    | .failure e =>
      let retry0 := retryableErr e
      let swap := swapCond fromFile retry0 tok
      let tok' := if swap then (fromFile.getD "").trim else tok
      if retry0 || swap then
        let r := refreshLoop oracle fromFile fuel (k + 1) tok' (some e)
        (r.1, { token := tok, outcome := .failure e, warned := !swap } :: r.2)
      else
        (.error e, [{ token := tok, outcome := .failure e, warned := false }])

/-- `do_refresh_token_with_retry`: ten iterations, starting from the
in-cell refresh token, with no prior `last_err`. -/
def do_refresh_token_with_retry (oracle : Nat → String → RefreshOutcome)
    (fromFile : Option String) (cellToken : String) :
    Except RefreshErr RefreshTokenResponse × List Att :=
  refreshLoop oracle fromFile 10 0 cellToken none

/-! ## Claim C1 — cache read hit/miss dichotomy -/

/-- The record written back on a cache miss: same `file_id`/`file_size`,
`start_pos := offset`, buffer replaced by the fetched chunk. -/
def missCached (cached : CachedFile) (offI : Int) (chunk : List Nat) : CachedFile :=
  { cached with start_pos := offI, buffer := chunk }

/-- **C1**: for every cache state and open handle `fh` (and a kernel read
offset, a nonnegative `i64`), `read(fh, offset, size)` returns the
in-buffer slice with no network request exactly when
`offset ≥ buffer_start ∧ offset + size ≤ buffer_start + len(buffer)`;
otherwise it requests a chunk of `min(read_buffer_size, file_size - offset)`
bytes starting at `offset` (truncated subtraction), replaces the handle's
buffer with the returned chunk, sets `buffer_start = offset`, and returns
the first `min(size, len(chunk))` bytes of the chunk. -/
theorem c1_cache_read (fc : FileCache) (o : DriveOracle) (fh : Nat)
    (cached : CachedFile) (off size : Nat)
    (hfh : alookup fh fc.cache = some cached) (hoff : off < 2 ^ 63) :
    (((fc.read o fh (off : Int) size).2.2 = []) ↔
      (cached.start_pos ≤ (off : Int) ∧
       (off : Int) + size ≤ cached.start_pos + cached.buffer.length)) ∧
    (cached.start_pos ≤ (off : Int) →
     (off : Int) + size ≤ cached.start_pos + cached.buffer.length →
     fc.read o fh (off : Int) size =
       (.ok ((cached.buffer.drop ((off : Int) - cached.start_pos).toNat).take size),
        fc, [])) ∧
    (¬(cached.start_pos ≤ (off : Int) ∧
       (off : Int) + size ≤ cached.start_pos + cached.buffer.length) →
     ∀ url chunk, o.getDownloadUrl cached.file_id = some url →
       o.download url off (min fc.read_buffer_size (cached.file_size - off)) = some chunk →
       fc.read o fh (off : Int) size =
         (.ok (chunk.take (min size chunk.length)),
          { fc with cache := ainsert natLtb fh (missCached cached (off : Int) chunk) fc.cache },
          [Ev.getDownloadUrl cached.file_id,
           Ev.download url off (min fc.read_buffer_size (cached.file_size - off))])) := by
  have h64 : off < 2 ^ 64 := lt_trans hoff (by norm_num)
  have hcast : toU64 (off : Int) = off := toU64_ofNat h64
  by_cases hcond : cached.start_pos ≤ (off : Int) ∧
      (off : Int) + size ≤ cached.start_pos + cached.buffer.length
  · refine ⟨?_, fun _ _ => ?_, fun hm => absurd hcond hm⟩
    · simp only [FileCache.read, hfh]
      rw [if_pos ⟨hcond.1, hcond.2⟩]
      simpa using hcond
    · simp only [FileCache.read, hfh]
      rw [if_pos ⟨hcond.1, hcond.2⟩]
  · refine ⟨?_, fun h1 h2 => absurd ⟨h1, h2⟩ hcond, fun _ url chunk hurl hdl => ?_⟩
    · simp only [FileCache.read, hfh]
      rw [if_neg (by exact fun h => hcond ⟨h.1, h.2⟩)]
      simp only [FileCache.read_chunk, hcast]
      constructor
      · intro h
        cases hu : o.getDownloadUrl cached.file_id with
        | none => simp only [hu] at h; simp at h
        | some url =>
          simp only [hu] at h
          cases hd : o.download url off
              (min fc.read_buffer_size (cached.file_size - off)) with
          | none => simp only [hd] at h; simp at h
          | some chunk => simp only [hd] at h; simp at h
      · intro h; exact absurd h hcond
    · simp only [FileCache.read, hfh]
      rw [if_neg (by exact fun h => hcond ⟨h.1, h.2⟩)]
      simp only [FileCache.read_chunk, hcast, hurl, hdl]
      have hmin : (if chunk.length ≥ size then size else chunk.length)
          = min size chunk.length := by
        split <;> omega
      rw [hmin]
      rfl

/-- Concrete instance of `c1_cache_read`: a handle whose buffer is
`[10, 11, 12, 13]` at `start_pos = 0`, read hit at `offset = 1, size = 2`. -/
def c1Cached : CachedFile :=
  { file_id := "f", file_size := 4, start_pos := 0, buffer := [10, 11, 12, 13] }

def c1Fc : FileCache := { read_buffer_size := 4, cache := [(3, c1Cached)] }

def c1Oracle : DriveOracle :=
  { getDownloadUrl := fun _ => none, download := fun _ _ _ => none,
    listAll := fun _ => none, getQuota := none }

theorem c1_cache_read_witness :
    c1Fc.read c1Oracle 3 (1 : Nat) 2 = (.ok [11, 12], c1Fc, []) := by
  have h := (c1_cache_read c1Fc c1Oracle 3 c1Cached 1 2 (by rfl) (by norm_num)).2.1
    (by norm_num [c1Cached]) (by norm_num [c1Cached])
  simpa [c1Cached] using h

/-! ## Claim C4 — VFS read clamping (code bug at ≥ 4 GiB files)

`AliyunDriveFileSystem::read` computes
`min(size, file.size.saturating_sub(offset as u64) as u32)`: the `as u32`
cast truncates the remaining byte count modulo `2^32`, so for a file of
exactly `2^32` bytes a 1-byte read at offset 0 is clamped to 0 bytes. -/

def c4File : AliyunFile :=
  { id := "big", name := "big", type := .file, size := 2 ^ 32 }

def c4Cached : CachedFile :=
  { file_id := "big", file_size := 2 ^ 32, start_pos := 0, buffer := [] }

def c4State : FSState :=
  { file_cache := { read_buffer_size := 10485760, cache := [(3, c4Cached)] },
    files := [(2, c4File)], inodes := [], next_inode := 1, next_fh := 3 }

def c4Oracle : DriveOracle :=
  { getDownloadUrl := fun _ => some "u",
    download := fun _ st n => some ((List.range n).map (· + st)),
    listAll := fun _ => none, getQuota := none }

/-- **C4** failing input: inode 2 is present with `file_size = 2^32`,
`offset = 0 < file_size` and `size = 1`, so the claim's clamp
`min(size, file_size - offset)` is `1` and one byte should be delegated to
the cache; the code truncates `file_size - offset` to `u32` (`0`), delegates
a 0-byte read and returns an empty buffer without any network request. -/
theorem c4_truncation_bug :
    (c4State.read c4Oracle 2 3 0 1).1 = .ok [] ∧
    (c4State.read c4Oracle 2 3 0 1).2.2 = [] ∧
    alookup 2 c4State.files = some c4File ∧
    (0 : Int) < (c4File.size : Int) ∧
    min 1 (c4File.size - 0) = 1 := by
  refine ⟨rfl, rfl, ?_, ?_, ?_⟩ <;> decide

/-! ## Claim C5 — reads crossing end-of-file -/

def c5File : AliyunFile := { id := "x", name := "x", type := .file, size := 10 }

def c5Cached : CachedFile :=
  { file_id := "x", file_size := 10, start_pos := 0, buffer := [] }

def c5State : FSState :=
  { file_cache := { read_buffer_size := 4, cache := [(9, c5Cached)] },
    files := [(7, c5File)], inodes := [], next_inode := 1, next_fh := 9 }

/-- **C5** counterexample: handle 9 is open on a file of 10 bytes with a
configured chunk size of 4; the range download always returns the full
requested chunk, `offset = 0 < 10 = file_size` and
`offset + size = 12 > file_size`, yet the read returns the 4 bytes of the
fetched chunk, not `file_size - offset = 10` bytes. -/
theorem c5_counterexample :
    c4Oracle.download "u" 0 4 = some [0, 1, 2, 3] ∧
    alookup 9 c5State.file_cache.cache = some c5Cached ∧
    c5Cached.file_size = c5File.size ∧
    (0 : Nat) < c5File.size ∧ c5File.size < 0 + 12 ∧
    (c5State.read c4Oracle 7 9 0 12).1 = .ok [0, 1, 2, 3] ∧
    ([0, 1, 2, 3] : List Nat).length ≠ c5File.size - 0 := by
  refine ⟨rfl, ?_, ?_, ?_, ?_, rfl, ?_⟩ <;> decide

/-- **C5 amended**: with the two hypotheses the counterexample forces made
explicit — the kernel offset is a nonnegative `i64` and the remaining span
`file_size - offset` fits in one configured chunk (otherwise a miss can
only return one chunk) — a read past end-of-file returns exactly
`file_size - offset` bytes, assuming every range download succeeds and
returns the full requested chunk. -/
theorem c5_amended (s : FSState) (o : DriveOracle) (ino fh off size : Nat)
    (file : AliyunFile) (cached : CachedFile)
    (hfile : alookup ino s.files = some file)
    (hcache : alookup fh s.file_cache.cache = some cached)
    (hsz : cached.file_size = file.size)
    (hlt : off < file.size) (hover : file.size < off + size)
    (hsize32 : size < 2 ^ 32) (hoff : off < 2 ^ 63)
    (hchunk : file.size - off ≤ s.file_cache.read_buffer_size)
    (hurl : ∃ u, o.getDownloadUrl cached.file_id = some u)
    (hdl : ∀ u n, ∃ bs, o.download u off n = some bs ∧ bs.length = n) :
    ∃ bs, (s.read o ino fh (off : Nat) size).1 = .ok bs ∧
      bs.length = file.size - off := by
  have h64 : off < 2 ^ 64 := lt_trans hoff (by norm_num)
  have hcast : toU64 (off : Int) = off := toU64_ofNat h64
  have hnotge : ¬((off : Int) ≥ (file.size : Int)) := by
    simp only [ge_iff_le, not_le]
    exact_mod_cast hlt
  have hrem : (file.size - off) % 2 ^ 32 = file.size - off :=
    Nat.mod_eq_of_lt (by omega)
  have hclamp : min size ((file.size - toU64 (off : Int)) % 2 ^ 32) = file.size - off := by
    rw [hcast, hrem]; omega
  simp only [FSState.read, hfile, if_neg hnotge, hclamp]
  -- now the delegated cache read with size' = file.size - off
  rcases hurl with ⟨u, hu⟩
  have h1 := c1_cache_read s.file_cache o fh cached off (file.size - off) hcache hoff
  by_cases hcond : cached.start_pos ≤ (off : Int) ∧
      (off : Int) + (file.size - off : Nat) ≤ cached.start_pos + cached.buffer.length
  · -- buffer hit: the slice has exactly size' elements
    have hread := h1.2.1 hcond.1 hcond.2
    rw [hread]
    refine ⟨_, rfl, ?_⟩
    have h0 : (0 : Int) ≤ (off : Int) - cached.start_pos := by omega
    have hlen : ((off : Int) - cached.start_pos).toNat + (file.size - off)
        ≤ cached.buffer.length := by omega
    simp only [List.length_take, List.length_drop]
    omega
  · -- miss: the chunk request is for exactly size' = file.size - off bytes
    have hreq : min s.file_cache.read_buffer_size (cached.file_size - off)
        = file.size - off := by
      rw [hsz]; omega
    obtain ⟨chunk, hdl', hlen⟩ := hdl u (min s.file_cache.read_buffer_size (cached.file_size - off))
    have hread := h1.2.2 hcond u chunk hu hdl'
    rw [hread]
    refine ⟨_, rfl, ?_⟩
    rw [hreq] at hlen
    simp only [List.length_take]
    omega

/-- Concrete instance of `c5_amended`: file of 3 bytes, chunk size 4, read
of 5 bytes at offset 1 returns the 2 remaining bytes. -/
def c5wFile : AliyunFile := { id := "y", name := "y", type := .file, size := 3 }

def c5wCached : CachedFile :=
  { file_id := "y", file_size := 3, start_pos := 0, buffer := [] }

def c5wState : FSState :=
  { file_cache := { read_buffer_size := 4, cache := [(9, c5wCached)] },
    files := [(7, c5wFile)], inodes := [], next_inode := 1, next_fh := 9 }

theorem c5_amended_witness :
    ∃ bs, (c5wState.read c4Oracle 7 9 (1 : Nat) 5).1 = .ok bs ∧
      bs.length = c5wFile.size - 1 := by
  refine c5_amended c5wState c4Oracle 7 9 1 5 c5wFile c5wCached rfl rfl rfl
    (by decide) (by decide) (by decide) (by decide) (by decide)
    ⟨"u", rfl⟩ (fun u n => ⟨(List.range n).map (· + 1), rfl, by simp⟩)

end AliyunFuse

namespace AliyunFuse

/-! ## Claim C6 — the JSON-call retry/re-auth envelope -/

/-- Number of HTTP sends recorded in a request's event log. -/
def countSends (evs : List ReqEv) : Nat :=
  (evs.filter (fun e => match e with | .send _ => true | _ => false)).length

/-- **C6**: every JSON call performs at most one resend. A first response
of 401 triggers a refresh and, on refresh success, exactly one resend with
the new token; on 408/429/500/502/503/504 it sleeps and resends exactly
once with the same token; a transport failure or any other error status is
surfaced immediately with no resend; and the single resend's outcome —
failure included — is surfaced as is (`finishSend`). -/
theorem c6_request_envelope (tok : String) (o : ReqOracle) :
    (countSends (request (some tok) o).2 ≤ 2) ∧
    (o.first = .transport →
      request (some tok) o = (.error .transportErr, [.send tok])) ∧
    (∀ c, o.first = .status c → c < 400 →
      request (some tok) o = (.ok (if c = 204 then none else some ()), [.send tok])) ∧
    (∀ t', o.first = .status 401 → o.refreshTok = some t' →
      request (some tok) o = (finishSend o.second, [.send tok, .refresh, .send t'])) ∧
    (o.first = .status 401 → o.refreshTok = none →
      request (some tok) o = (.error .refreshFailed, [.send tok, .refresh])) ∧
    (∀ c, o.first = .status c → c ∈ retryStatuses →
      request (some tok) o = (finishSend o.second, [.send tok, .sleep, .send tok])) ∧
    (∀ c, o.first = .status c → 400 ≤ c → c ≠ 401 → c ∉ retryStatuses →
      request (some tok) o = (.error (.httpErr c), [.send tok])) := by
  refine ⟨?_, ?_, ?_, ?_, ?_, ?_, ?_⟩
  · -- at most one resend, by exhausting the branches
    cases hf : o.first with
    | transport => simp [request, hf, countSends]
    | status c =>
      by_cases h4 : c < 400
      · simp [request, hf, h4, countSends]
      · by_cases h401 : c = 401
        · cases hr : o.refreshTok with
          | none => simp [request, hf, h4, h401, hr, countSends]
          | some t' => simp [request, hf, h4, h401, hr, countSends]
        · by_cases hrs : c ∈ retryStatuses
          · simp [request, hf, h4, h401, hrs, countSends]
          · simp [request, hf, h4, h401, hrs, countSends]
  · intro hf; simp [request, hf]
  · intro c hf h4; simp [request, hf, h4]
  · intro t' hf hr
    simp [request, hf, hr]
  · intro hf hr; simp [request, hf, hr]
  · intro c hf hrs
    have hm : c = 408 ∨ c = 429 ∨ c = 500 ∨ c = 502 ∨ c = 503 ∨ c = 504 := by
      simpa [retryStatuses] using hrs
    have h4 : ¬(c < 400) := by omega
    have h401 : c ≠ 401 := by omega
    simp [request, hf, h4, h401, hrs]
  · intro c hf h4 h401 hrs
    simp [request, hf, h401, hrs, Nat.not_lt.mpr h4]

def c6Oracle : ReqOracle :=
  { first := .status 429, refreshTok := none, second := .status 200 }

/-- Concrete instance of `c6_request_envelope`: a 429 first response is
resent once after the sleep and the resend's success is returned. -/
theorem c6_request_envelope_witness :
    request (some "t") c6Oracle = (.ok (some ()), [.send "t", .sleep, .send "t"]) := by
  have h := (c6_request_envelope "t" c6Oracle).2.2.2.2.2.1 429 rfl (by decide)
  simpa [finishSend, c6Oracle] using h

end AliyunFuse

namespace AliyunFuse

/-! ## Claim C7 — the token-refresh retry loop -/

/-- The condition under which an attempt is followed by a further attempt
(fuel permitting): it failed, and the failure is retryable by itself or the
bootstrap token exists and differs from the token just tried. -/
def attFollows (fromFile : Option String) (a : Att) : Prop :=
  ∃ e, a.outcome = .failure e ∧
    (retryableErr e = true ∨ ∃ f, fromFile = some f ∧ a.token ≠ f)

theorem getLast?_cons_ne {α : Type} (a : α) {l : List α} (h : l ≠ []) :
    (a :: l).getLast? = l.getLast? := by
  cases l with
  | nil => exact absurd rfl h
  | cons b t => simp [List.getLast?]

/-- Full characterization of a `refreshLoop` run: trace length bounds, the
first attempt's token, success iff some attempt succeeded, the result
reflects the last attempt, the exact follow-up condition, and the silent
trimmed bootstrap swap. -/
def loopSpec (fromFile : Option String) (fuel : Nat) (tok : String)
    (p : Except RefreshErr RefreshTokenResponse × List Att) : Prop :=
  (1 ≤ p.2.length ∧ p.2.length ≤ fuel) ∧
  (p.2.head?.map Att.token = some tok) ∧
  ((∃ res, p.1 = .ok res) ↔ ∃ a ∈ p.2, ∃ res, a.outcome = .success res) ∧
  (∀ res, p.1 = .ok res → ∃ a, p.2.getLast? = some a ∧ a.outcome = .success res) ∧
  (∀ e, p.1 = .error e → ∃ a, p.2.getLast? = some a ∧ a.outcome = .failure e) ∧
  (∀ i a, p.2[i]? = some a →
    ((i + 1 < p.2.length) ↔ (i + 1 < fuel ∧ attFollows fromFile a))) ∧
  (∀ i a e f, p.2[i]? = some a → a.outcome = .failure e → retryableErr e = false →
    fromFile = some f → a.token ≠ f →
    a.warned = false ∧ ∀ b, p.2[i + 1]? = some b → b.token = f.trim)

theorem refreshLoop_spec (oracle : Nat → String → RefreshOutcome)
    (fromFile : Option String) :
    ∀ fuel k tok last, 1 ≤ fuel →
      loopSpec fromFile fuel tok (refreshLoop oracle fromFile fuel k tok last) := by
  intro fuel
  induction fuel with
  | zero => intro k tok last h; omega
  | succ n ih =>
    intro k tok last _
    cases hstep : oracle k tok with
    | success res =>
      simp only [refreshLoop, hstep]
      refine ⟨⟨by simp, by simp⟩, by simp, ?_, ?_, ?_, ?_, ?_⟩
      · constructor
        · intro _
          exact ⟨Att.mk tok (.success res) false, by simp, res, rfl⟩
        · intro _; exact ⟨res, rfl⟩
      · intro res' h
        have hres : res = res' := Except.ok.inj h
        subst hres
        exact ⟨Att.mk tok (.success res) false, by simp, rfl⟩
      · intro e h; cases h
      · intro i a ha
        cases i with
        | zero =>
          simp only [List.getElem?_cons_zero, Option.some.injEq] at ha
          subst ha
          simp only [List.length_cons, List.length_nil]
          constructor
          · omega
          · rintro ⟨_, e, he, _⟩; cases he
        | succ j => simp at ha
      · intro i a e f ha hout
        cases i with
        | zero =>
          simp only [List.getElem?_cons_zero, Option.some.injEq] at ha
          subst ha
          cases hout
        | succ j => simp at ha
    | failure e =>
      by_cases hretry : (retryableErr e || swapCond fromFile (retryableErr e) tok) = true
      · -- the attempt is followed by a retry
        have hunfold : refreshLoop oracle fromFile (n + 1) k tok last =
            ((refreshLoop oracle fromFile n (k + 1)
                (if swapCond fromFile (retryableErr e) tok then (fromFile.getD "").trim else tok)
                (some e)).1,
             { token := tok, outcome := .failure e,
               warned := !swapCond fromFile (retryableErr e) tok } ::
              (refreshLoop oracle fromFile n (k + 1)
                (if swapCond fromFile (retryableErr e) tok then (fromFile.getD "").trim else tok)
                (some e)).2) := by
          simp only [refreshLoop, hstep, hretry, if_true]
        set tok' := if swapCond fromFile (retryableErr e) tok then (fromFile.getD "").trim else tok with htok'
        set r := refreshLoop oracle fromFile n (k + 1) tok' (some e) with hr
        have hatt : attFollows fromFile
            { token := tok, outcome := .failure e,
              warned := !swapCond fromFile (retryableErr e) tok } := by
          refine ⟨e, rfl, ?_⟩
          rcases Bool.or_eq_true_iff.mp hretry with h | h
          · exact Or.inl h
          · right
            cases hff : fromFile with
            | none => rw [hff] at h; simp [swapCond] at h
            | some f =>
              rw [hff] at h
              simp only [swapCond, Bool.and_eq_true, decide_eq_true_eq] at h
              exact ⟨f, rfl, h.2⟩
        cases n with
        | zero =>
          -- fuel exhausted right after this attempt
          have hr0 : r = (.error e, []) := by rw [hr]; rfl
          rw [hunfold, hr0]
          refine ⟨⟨by simp, by simp⟩, by simp, ?_, ?_, ?_, ?_, ?_⟩
          · constructor
            · rintro ⟨res, h⟩; cases h
            · rintro ⟨a, ha, res, hout⟩
              simp only [List.mem_singleton] at ha
              subst ha; cases hout
          · intro res h; cases h
          · intro e' h
            cases h
            exact ⟨Att.mk tok (.failure e) (!swapCond fromFile (retryableErr e) tok), by simp, rfl⟩
          · intro i a ha
            cases i with
            | zero =>
              simp only [List.getElem?_cons_zero, Option.some.injEq] at ha
              subst ha
              simp only [List.length_cons, List.length_nil]
              constructor
              · omega
              · intro h; omega
            | succ j => simp at ha
          · intro i a e' f ha hout hnr hff hne
            cases i with
            | zero =>
              simp only [List.getElem?_cons_zero, Option.some.injEq] at ha
              subst ha
              simp only [RefreshOutcome.failure.injEq] at hout
              subst hout
              have hswap : swapCond fromFile (retryableErr e) tok = true := by
                rw [hff]
                simp [swapCond, hnr, hne]
              refine ⟨by simp [hswap], ?_⟩
              intro b hb
              simp at hb
            | succ j => simp at ha
        | succ m =>
          -- at least one further iteration available
          have hspec := ih (k + 1) tok' (some e) (by omega)
          rw [← hr] at hspec
          obtain ⟨⟨hlen1, hlen2⟩, hhead, hok, hoklast, herrlast, hfollow, hswaps⟩ := hspec
          have hne : r.2 ≠ [] := by
            intro h; rw [h] at hlen1; simp at hlen1
          rw [hunfold]
          refine ⟨⟨by simp, by simp; omega⟩, by simp, ?_, ?_, ?_, ?_, ?_⟩
          · constructor
            · rintro ⟨res, h⟩
              obtain ⟨a, ha, res', hout⟩ := hok.mp ⟨res, h⟩
              exact ⟨a, by simp [ha], res', hout⟩
            · rintro ⟨a, ha, res, hout⟩
              simp only [List.mem_cons] at ha
              rcases ha with ha | ha
              · subst ha; cases hout
              · exact hok.mpr ⟨a, ha, res, hout⟩
          · intro res h
            obtain ⟨a, hlast, hout⟩ := hoklast res h
            exact ⟨a, by rw [getLast?_cons_ne _ hne]; exact hlast, hout⟩
          · intro e' h
            obtain ⟨a, hlast, hout⟩ := herrlast e' h
            exact ⟨a, by rw [getLast?_cons_ne _ hne]; exact hlast, hout⟩
          · intro i a ha
            cases i with
            | zero =>
              simp only [List.getElem?_cons_zero, Option.some.injEq] at ha
              subst ha
              simp only [List.length_cons]
              constructor
              · intro _; exact ⟨by omega, hatt⟩
              · intro _; omega
            | succ j =>
              simp only [List.getElem?_cons_succ] at ha
              have := hfollow j a ha
              simp only [List.length_cons]
              constructor
              · intro h
                have hj : j + 1 < r.2.length := by omega
                obtain ⟨h1, h2⟩ := this.mp hj
                exact ⟨by omega, h2⟩
              · rintro ⟨h1, h2⟩
                have : j + 1 < r.2.length := this.mpr ⟨by omega, h2⟩
                omega
          · intro i a e' f ha hout hnr hff hne'
            cases i with
            | zero =>
              simp only [List.getElem?_cons_zero, Option.some.injEq] at ha
              subst ha
              simp only [RefreshOutcome.failure.injEq] at hout
              subst hout
              have hswap : swapCond fromFile (retryableErr e) tok = true := by
                rw [hff]
                simp [swapCond, hnr, hne']
              refine ⟨by simp [hswap], ?_⟩
              intro b hb
              simp only [List.getElem?_cons_succ, List.getElem?_cons_zero] at hb
              have hhd : r.2.head? = some b := by
                cases hl : r.2 with
                | nil => rw [hl] at hb; exact absurd hb (by simp)
                | cons x xs => rw [hl] at hb; simpa using hb
              rw [hhd] at hhead
              have hbt : b.token = tok' := by simpa using hhead
              rw [hbt, htok', hff]
              rw [hff] at hswap
              simp [hswap]
            | succ j =>
              simp only [List.getElem?_cons_succ] at ha ⊢
              exact hswaps j a e' f ha hout hnr hff hne'
      · -- non-retryable failure without an applicable bootstrap: break
        have hunfold : refreshLoop oracle fromFile (n + 1) k tok last =
            (.error e, [{ token := tok, outcome := .failure e, warned := false }]) := by
          simp only [refreshLoop, hstep]
          rw [if_neg hretry]
        have hor : (retryableErr e || swapCond fromFile (retryableErr e) tok) = false := by
          simpa using hretry
        have hnr : retryableErr e = false := (Bool.or_eq_false_iff.mp hor).1
        have hnswap : swapCond fromFile (retryableErr e) tok = false :=
          (Bool.or_eq_false_iff.mp hor).2
        rw [hunfold]
        refine ⟨⟨by simp, by simp⟩, by simp, ?_, ?_, ?_, ?_, ?_⟩
        · constructor
          · rintro ⟨res, h⟩; cases h
          · rintro ⟨a, ha, res, hout⟩
            simp only [List.mem_singleton] at ha
            subst ha; cases hout
        · intro res h; cases h
        · intro e' h
          cases h
          exact ⟨Att.mk tok (.failure e) false, by simp, rfl⟩
        · intro i a ha
          cases i with
          | zero =>
            simp only [List.getElem?_cons_zero, Option.some.injEq] at ha
            subst ha
            simp only [List.length_cons, List.length_nil]
            constructor
            · omega
            · rintro ⟨_, e', he', hcase⟩
              simp only [RefreshOutcome.failure.injEq] at he'
              subst he'
              rcases hcase with h | ⟨f, hf, hne⟩
              · rw [hnr] at h; cases h
              · rw [hf] at hnswap
                rw [hnr] at hnswap
                simp [swapCond, hne] at hnswap
          | succ j => simp at ha
        · intro i a e' f ha hout hnr' hff hne
          cases i with
          | zero =>
            simp only [List.getElem?_cons_zero, Option.some.injEq] at ha
            subst ha
            simp only [RefreshOutcome.failure.injEq] at hout
            subst hout
            rw [hff] at hnswap
            rw [hnr'] at hnswap
            simp [swapCond, hne] at hnswap
          | succ j => simp at ha

end AliyunFuse

namespace AliyunFuse

/-- **C7**: `refresh_with_retry` makes between one and ten attempts; the
call succeeds exactly when some attempt made succeeded (the loop stops at
the first success, which is then the last attempt); a surfaced error is the
last attempt's; an attempt is followed by a further attempt exactly when
fuel remains and it failed with a connection error, a timeout or HTTP 429,
or the bootstrap token exists and differs from the token just tried
(`attFollows`); and in the bootstrap-swap case no warning is logged and the
next attempt uses the trimmed bootstrap token. -/
theorem c7_refresh_with_retry (oracle : Nat → String → RefreshOutcome)
    (fromFile : Option String) (cellToken : String) :
    (1 ≤ (do_refresh_token_with_retry oracle fromFile cellToken).2.length ∧
     (do_refresh_token_with_retry oracle fromFile cellToken).2.length ≤ 10) ∧
    ((∃ res, (do_refresh_token_with_retry oracle fromFile cellToken).1 = .ok res) ↔
      ∃ a ∈ (do_refresh_token_with_retry oracle fromFile cellToken).2,
        ∃ res, a.outcome = .success res) ∧
    (∀ res, (do_refresh_token_with_retry oracle fromFile cellToken).1 = .ok res →
      ∃ a, (do_refresh_token_with_retry oracle fromFile cellToken).2.getLast? = some a ∧
        a.outcome = .success res) ∧
    (∀ e, (do_refresh_token_with_retry oracle fromFile cellToken).1 = .error e →
      ∃ a, (do_refresh_token_with_retry oracle fromFile cellToken).2.getLast? = some a ∧
        a.outcome = .failure e) ∧
    (∀ i a, (do_refresh_token_with_retry oracle fromFile cellToken).2[i]? = some a →
      ((i + 1 < (do_refresh_token_with_retry oracle fromFile cellToken).2.length) ↔
        (i + 1 < 10 ∧ attFollows fromFile a))) ∧
    (∀ i a e f, (do_refresh_token_with_retry oracle fromFile cellToken).2[i]? = some a →
      a.outcome = .failure e → retryableErr e = false →
      fromFile = some f → a.token ≠ f →
      a.warned = false ∧
        ∀ b, (do_refresh_token_with_retry oracle fromFile cellToken).2[i + 1]? = some b →
          b.token = f.trim) := by
  have h := refreshLoop_spec oracle fromFile 10 0 cellToken none (by omega)
  exact ⟨h.1, h.2.2.1, h.2.2.2.1, h.2.2.2.2.1, h.2.2.2.2.2.1, h.2.2.2.2.2.2⟩

def c7res : RefreshTokenResponse :=
  { refresh_token := "r", access_token := "a", expires_in := 7200,
    default_drive_id := "d", nick_name := "n" }

/-- Nine 429 responses followed by a success. -/
def c7orc9 : Nat → String → RefreshOutcome := fun k _ =>
  if k < 9 then .failure { is_connect := false, is_timeout := false, status := some 429 }
  else .success c7res

/-- Ten connection failures. -/
def c7orc10 : Nat → String → RefreshOutcome := fun _ _ =>
  .failure { is_connect := true, is_timeout := false, status := none }

/-- Concrete instances of `c7_refresh_with_retry`: nine 429 failures and a
tenth success report success; ten connection failures surface the last
error, the tenth attempt's. -/
theorem c7_refresh_with_retry_witness :
    (∃ a ∈ (do_refresh_token_with_retry c7orc9 none "t").2,
      ∃ res, a.outcome = .success res) ∧
    (∃ a, (do_refresh_token_with_retry c7orc10 none "t").2.getLast? = some a ∧
      a.outcome = .failure { is_connect := true, is_timeout := false, status := none }) := by
  constructor
  · exact (c7_refresh_with_retry c7orc9 none "t").2.1.mp ⟨c7res, rfl⟩
  · exact (c7_refresh_with_retry c7orc10 none "t").2.2.2.1 _ rfl

end AliyunFuse

namespace AliyunFuse

/-! ## Claim C8 — invariant of the per-handle buffer -/

/-- State effect of `FileCache::read`: either the cache is untouched, or
the addressed handle's record is replaced by one whose buffer is a chunk of
at most `min(read_buffer_size, file_size - offset)` bytes (the requested
chunk size bounds the returned bytes, per the §4.2 download contract
supplied as `hdl`) positioned at `start_pos = offset`. -/
theorem FileCache.read_state (fc : FileCache) (o : DriveOracle) (fh : Nat)
    (offset : Int) (size : Nat)
    (hdl : ∀ u st n bs, o.download u st n = some bs → bs.length ≤ n) :
    (fc.read o fh offset size).2.1 = fc ∨
    ∃ cached chunk, alookup fh fc.cache = some cached ∧
      chunk.length ≤ min fc.read_buffer_size (cached.file_size - toU64 offset) ∧
      (fc.read o fh offset size).2.1 =
        { fc with cache := ainsert natLtb fh (missCached cached offset chunk) fc.cache } := by
  cases hfh : alookup fh fc.cache with
  | none => left; simp [FileCache.read, hfh]
  | some cached =>
    by_cases hcond : offset ≥ cached.start_pos ∧
        offset + (size : Int) ≤ cached.start_pos + (cached.buffer.length : Int)
    · left; simp [FileCache.read, hfh, hcond]
    · cases hu : o.getDownloadUrl cached.file_id with
      | none =>
        left
        simp only [FileCache.read, hfh]
        rw [if_neg hcond]
        simp [FileCache.read_chunk, hu]
      | some url =>
        cases hd : o.download url (toU64 offset)
            (min fc.read_buffer_size (cached.file_size - toU64 offset)) with
        | none =>
          left
          simp only [FileCache.read, hfh]
          rw [if_neg hcond]
          simp [FileCache.read_chunk, hu, hd]
        | some chunk =>
          right
          refine ⟨cached, chunk, rfl, hdl _ _ _ _ hd, ?_⟩
          simp only [FileCache.read, hfh]
          rw [if_neg hcond]
          simp only [FileCache.read_chunk, hu, hd]
          rfl

/-- Cache states reachable through `open`, `read` and `release`, with reads
issued by the VFS adaptor: the kernel read offset is a nonnegative `i64`,
the handle's size is a `u64`, the adaptor delegates only when
`offset < file_size`, and (§4.2) a range download returns at most the
requested number of bytes. -/
inductive CacheReach : FileCache → Prop
  | empty (rbs : Nat) : CacheReach { read_buffer_size := rbs, cache := [] }
  | openH {fc : FileCache} (fh : Nat) (id : String) (sz : Nat) (hsz : sz < 2 ^ 64) :
      CacheReach fc → CacheReach (fc.openHandle fh id sz)
  | releaseH {fc : FileCache} (fh : Nat) :
      CacheReach fc → CacheReach (fc.release fh)
  | readH {fc : FileCache} (o : DriveOracle) (fh : Nat) (off size : Nat)
      (hoff : off < 2 ^ 63)
      (hpre : ∀ cached, alookup fh fc.cache = some cached → off < cached.file_size)
      (hdl : ∀ u st n bs, o.download u st n = some bs → bs.length ≤ n) :
      CacheReach fc → CacheReach (fc.read o fh (off : Int) size).2.1

/-- The claimed invariant: every handle with a non-empty buffer satisfies
`buffer_start ≥ 0` and `buffer_start + len(buffer) ≤ file_size`. -/
def cacheInv (fc : FileCache) : Prop :=
  ∀ fh cached, alookup fh fc.cache = some cached → cached.buffer ≠ [] →
    0 ≤ cached.start_pos ∧
    cached.start_pos + (cached.buffer.length : Int) ≤ (cached.file_size : Int)

/-- **C8**: in every cache state reachable by `open`/`read`/`release` (reads
under the adaptor's precondition `offset < file_size`), every handle with a
non-empty buffer has `buffer_start ≥ 0` and
`buffer_start + len(buffer) ≤ file_size`. -/
theorem c8_cache_invariant {fc : FileCache} (h : CacheReach fc) : cacheInv fc := by
  induction h with
  | empty rbs => intro fh cached h _; simp [alookup] at h
  | openH fh id sz hsz hr ih =>
    intro fh' cached h hne
    by_cases heq : fh' = fh
    · subst heq
      rw [FileCache.openHandle] at h
      simp only [alookup_ainsert_self] at h
      cases h
      simp at hne
    · rw [FileCache.openHandle] at h
      simp only [alookup_ainsert_ne natLtb heq] at h
      exact ih fh' cached h hne
  | releaseH fh hr ih =>
    intro fh' cached h hne
    by_cases heq : fh' = fh
    · subst heq
      rw [FileCache.release] at h
      simp only [alookup_aerase_self] at h
      cases h
    · rw [FileCache.release] at h
      rw [alookup_aerase_ne heq] at h
      exact ih fh' cached h hne
  | readH o fh off size hoff hpre hdl hr ih =>
    rcases FileCache.read_state _ o fh (off : Int) size hdl with hsame | hmiss
    · rw [hsame]; exact ih
    · obtain ⟨cached, chunk, hfh, hlen, hstate⟩ := hmiss
      rw [hstate]
      intro fh' cached' h hne
      by_cases heq : fh' = fh
      · subst heq
        simp only [alookup_ainsert_self] at h
        cases h
        have h64 : off < 2 ^ 64 := lt_trans hoff (by norm_num)
        rw [toU64_ofNat h64] at hlen
        have hlt : off < cached.file_size := hpre cached hfh
        simp only [missCached] at hne ⊢
        constructor
        · positivity
        · have : chunk.length ≤ cached.file_size - off := le_trans hlen (min_le_right _ _)
          have := Nat.le_of_lt hlt
          omega
      · simp only [alookup_ainsert_ne natLtb heq] at h
        exact ih fh' cached' h hne

/-- Concrete instance of `c8_cache_invariant`: open a 10-byte file on
handle 3, read 4 bytes at offset 6 (a miss that buffers the final 4
bytes). -/
theorem c8_cache_invariant_witness :
    cacheInv ((((FileCache.mk 4 []).openHandle 3 "x" 10).read c4Oracle 3 (6 : Nat) 4).2.1) := by
  refine c8_cache_invariant (CacheReach.readH c4Oracle 3 6 4 (by norm_num) ?_ ?_
    (CacheReach.openH 3 "x" 10 (by norm_num) (CacheReach.empty 4)))
  · intro cached h
    rw [FileCache.openHandle] at h
    simp only [alookup_ainsert_self] at h
    cases h
    norm_num
  · intro u st n bs h
    simp only [c4Oracle] at h
    cases h
    simp

end AliyunFuse

namespace AliyunFuse

/-! ## Claim C9 — readdir continuation (`offset ≠ 0`) -/

theorem emitChildren_ok {files : List (Nat × AliyunFile)} :
    ∀ {cs es}, emitChildren files cs = .ok es →
      es.length = cs.length ∧
      ∀ (i : Nat) (c : Nat), cs[i]? = some c →
        ∃ f, alookup c files = some f ∧ es[i]? = some (c, f.type.toFuse, f.name) := by
  intro cs
  induction cs with
  | nil =>
    intro es h
    cases h
    exact ⟨rfl, by intro i c h; simp at h⟩
  | cons c rest ih =>
    intro es h
    simp only [emitChildren] at h
    cases hf : alookup c files with
    | none => rw [hf] at h; cases h
    | some f =>
      rw [hf] at h
      cases he : emitChildren files rest with
      | error e => rw [he] at h; cases h
      | ok es' =>
        rw [he] at h
        cases h
        obtain ⟨hlen, hidx⟩ := ih he
        refine ⟨by simp [hlen], ?_⟩
        intro i c' hc
        cases i with
        | zero =>
          simp only [List.getElem?_cons_zero, Option.some.injEq] at hc
          subst hc
          exact ⟨f, hf, by simp⟩
        | succ j =>
          simp only [List.getElem?_cons_succ] at hc ⊢
          exact hidx j c' hc

theorem enumFrom_getElem? {α : Type} :
    ∀ (l : List α) (n i : Nat), (l.enumFrom n)[i]? = l[i]?.map (fun a => (n + i, a)) := by
  intro l
  induction l with
  | nil => intro n i; simp
  | cons a t ih =>
    intro n i
    cases i with
    | zero => simp
    | succ j =>
      simp only [List.enumFrom, List.getElem?_cons_succ]
      rw [ih (n + 1) j]
      have : n + 1 + j = n + (j + 1) := by omega
      rw [this]

theorem enum_getElem? {α : Type} (l : List α) (i : Nat) :
    (l.enum)[i]? = l[i]?.map (fun a => (i, a)) := by
  have h := enumFrom_getElem? l 0 i
  simp only [Nat.zero_add] at h
  exact h

/-- **C9**: for a present directory inode and a continuation cookie
(`offset ≠ 0`, a nonnegative `i64`), `readdir` performs no network request
and leaves the whole filesystem state unchanged, and on success emits
exactly the children from index `offset` of the children-map iteration
order, the `i`-th emitted entry carrying next-cookie `offset + i + 1`. -/
theorem c9_readdir_continuation (s : FSState) (o : DriveOracle) (ino : Nat)
    (off : Nat) (inode0 : Inode)
    (hino : alookup ino s.inodes = some inode0)
    (hoff : off ≠ 0) (hoff63 : off < 2 ^ 63) :
    (∀ r s' evs, s.readdirOuter o ino (off : Nat) = (r, s', evs) → s' = s ∧ evs = []) ∧
    (∀ out s' evs, s.readdirOuter o ino (off : Nat) = (.ok out, s', evs) →
      out.length = ((avalues inode0.children).drop off).length ∧
      ∀ (i : Nat) (c : Nat), ((avalues inode0.children).drop off)[i]? = some c →
        ∃ f, alookup c s.files = some f ∧
          out[i]? = some (c, (off : Int) + (i : Int) + 1, f.type.toFuse, f.name)) := by
  have h64 : off < 2 ^ 64 := lt_trans hoff63 (by norm_num)
  have hcast : toU64 (off : Int) = off := toU64_ofNat h64
  have hoffI : ((off : Nat) : Int) ≠ 0 := by exact_mod_cast hoff
  have hinner : s.readdir o ino (off : Nat) =
      (match emitChildren s.files ((avalues inode0.children).drop off) with
       | .error e => (.error e, s, [])
       | .ok es => (.ok es, s, [])) := by
    simp only [FSState.readdir, hino]
    rw [if_neg hoffI, hcast]
  cases he : emitChildren s.files ((avalues inode0.children).drop off) with
  | error e =>
    rw [he] at hinner
    have houter : s.readdirOuter o ino (off : Nat) = (.error e, s, []) := by
      simp only [FSState.readdirOuter, hinner]
    constructor
    · intro r s' evs h
      rw [houter] at h
      cases h
      exact ⟨rfl, rfl⟩
    · intro out s' evs h
      rw [houter] at h
      cases h
  | ok es =>
    rw [he] at hinner
    have houter : s.readdirOuter o ino (off : Nat) =
        (.ok (es.enum.map (fun p =>
          (p.2.1, (((off : Nat) : Int) + 1) + (p.1 : Int), p.2.2.1, p.2.2.2))), s, []) := by
      simp only [FSState.readdirOuter, hinner]
      rw [if_neg hoffI]
    obtain ⟨hlen, hidx⟩ := emitChildren_ok he
    constructor
    · intro r s' evs h
      rw [houter] at h
      cases h
      exact ⟨rfl, rfl⟩
    · intro out s' evs h
      rw [houter] at h
      injection h with h1 h2
      injection h1 with h1
      subst h1
      constructor
      · simp [hlen]
      · intro i c hc
        obtain ⟨f, hfile, hes⟩ := hidx i c hc
        refine ⟨f, hfile, ?_⟩
        rw [List.getElem?_map, enum_getElem?, hes]
        have : ((off : Nat) : Int) + 1 + (i : Int) = ((off : Nat) : Int) + (i : Int) + 1 := by ring
        simp only [Option.map_some', this]

end AliyunFuse

namespace AliyunFuse

def c9Node : Inode := { children := [("a", 2), ("c", 4)], parent := 0 }

def c9State : FSState :=
  { file_cache := { read_buffer_size := 4, cache := [] },
    files := [(2, c5File)], inodes := [(1, c9Node)], next_inode := 4, next_fh := 2 }

/-- Concrete instance of `c9_readdir_continuation`: a continuation readdir
leaves the state untouched and issues no network request. -/
theorem c9_readdir_continuation_witness :
    (c9State.readdirOuter c1Oracle 1 (1 : Nat)).2.1 = c9State ∧
    (c9State.readdirOuter c1Oracle 1 (1 : Nat)).2.2 = [] :=
  (c9_readdir_continuation c9State c1Oracle 1 1 c9Node rfl (by decide) (by norm_num)).1
    _ _ _ rfl

/-! ## Claim C10 — open and the file-handle allocator -/

def c10State : FSState :=
  { file_cache := { read_buffer_size := 4, cache := [] },
    files := [(1, c5File)], inodes := [], next_inode := 1, next_fh := 2 }

/-- **C10** counterexample: on a fresh filesystem (`next_fh` at its initial
value 2) with inode 1 present, the first successful `open` returns handle
3, not 2 — `next_fh()` increments before returning. -/
theorem c10_counterexample :
    c10State.next_fh = 2 ∧
    (c10State.openFile 1).1 = .ok 3 ∧
    (3 : Nat) ≠ 2 := by
  exact ⟨rfl, rfl, by decide⟩

/-- `open` applied successively to a list of inodes, collecting results. -/
def openSeq (s : FSState) : List Nat → List (Except Error Nat) × FSState
  | [] => ([], s)
  | ino :: rest =>
    let p := s.openFile ino
    let q := openSeq p.2 rest
    (p.1 :: q.1, q.2)

theorem openFile_files (s : FSState) (ino : Nat) :
    (s.openFile ino).2.files = s.files := by
  unfold FSState.openFile
  cases alookup ino s.files <;> rfl

theorem openFile_next_inode (s : FSState) (ino : Nat) :
    (s.openFile ino).2.next_inode = s.next_inode := by
  unfold FSState.openFile
  cases alookup ino s.files <;> rfl

theorem openFile_ok (s : FSState) (ino : Nat) (f : AliyunFile)
    (h : alookup ino s.files = some f) :
    (s.openFile ino).1 = .ok ((s.next_fh + 1) % 2 ^ 64) ∧
    (s.openFile ino).2.next_fh = (s.next_fh + 1) % 2 ^ 64 := by
  constructor <;> simp [FSState.openFile, h, FSState.nextFh]

theorem openSeq_handles :
    ∀ (inos : List Nat) (s : FSState),
      (∀ ino ∈ inos, (alookup ino s.files).isSome) →
      s.next_fh + inos.length < 2 ^ 64 →
      (openSeq s inos).1 =
        (List.range inos.length).map (fun k => .ok (s.next_fh + 1 + k)) ∧
      (openSeq s inos).2.next_fh = s.next_fh + inos.length ∧
      (openSeq s inos).2.files = s.files ∧
      (openSeq s inos).2.next_inode = s.next_inode := by
  intro inos
  induction inos with
  | nil => intro s _ _; simp [openSeq]
  | cons ino rest ih =>
    intro s hpres hlen
    have hsome : (alookup ino s.files).isSome := hpres ino (by simp)
    obtain ⟨f, hf⟩ := Option.isSome_iff_exists.mp hsome
    have hmod : (s.next_fh + 1) % 2 ^ 64 = s.next_fh + 1 := by
      apply Nat.mod_eq_of_lt
      simp only [List.length_cons] at hlen
      omega
    have hok := openFile_ok s ino f hf
    have hfiles := openFile_files s ino
    have hni := openFile_next_inode s ino
    have ihres := ih (s.openFile ino).2
      (by intro i hi; rw [hfiles]; exact hpres i (by simp [hi]))
      (by rw [hok.2, hmod]; simp only [List.length_cons] at hlen; omega)
    simp only [openSeq]
    refine ⟨?_, ?_, ?_, ?_⟩
    · simp only [List.length_cons]
      rw [List.range_succ_eq_map]
      simp only [List.map_cons, List.map_map]
      congr 1
      · rw [hok.1, hmod]
      · rw [ihres.1, hok.2, hmod]
        apply List.map_congr_left
        intro k _
        simp only [Function.comp_apply]
        congr 1
        omega
    · rw [ihres.2.1, hok.2, hmod]
      simp only [List.length_cons]
      omega
    · rw [ihres.2.2.1, hfiles]
    · rw [ihres.2.2.2, hni]

/-- **C10 amended**: `open` fails with `ENOENT` exactly when the inode is
absent from the file table; otherwise it draws handles from a monotonic
counter separate from the inode allocator with initial value 2, so a
sequence of successful opens from a fresh adaptor receives the strictly
increasing, pairwise distinct handles 3, 4, 5, … — the first allocated
handle is 3 (the counter increments before returning), not 2. -/
theorem c10_open_allocator (s : FSState) (inos : List Nat)
    (h2 : s.next_fh = 2)
    (hpres : ∀ ino ∈ inos, (alookup ino s.files).isSome)
    (hlen : inos.length + 2 < 2 ^ 64) :
    (∀ (t : FSState) (i : Nat),
      ((t.openFile i).1 = .error .noEntry ↔ alookup i t.files = none)) ∧
    (∀ (t : FSState) (i : Nat), (t.openFile i).2.next_inode = t.next_inode) ∧
    (openSeq s inos).1 = (List.range inos.length).map (fun k => .ok (3 + k)) := by
  refine ⟨?_, ?_, ?_⟩
  · intro t i
    cases hf : alookup i t.files with
    | none => simp [FSState.openFile, hf]
    | some f => simp [FSState.openFile, hf, FSState.nextFh]
  · intro t i; exact openFile_next_inode t i
  · have h := (openSeq_handles inos s hpres (by omega)).1
    rw [h, h2]

/-- Concrete instance of `c10_open_allocator`: two successive opens of
inode 1 receive handles 3 and 4. -/
theorem c10_open_allocator_witness :
    (openSeq c10State [1, 1]).1 = [.ok 3, .ok 4] := by
  have h := (c10_open_allocator c10State [1, 1] rfl
    (by intro i hi; simp at hi; subst hi; rfl)
    (by norm_num)).2.2
  simpa using h

end AliyunFuse

namespace AliyunFuse

/-! ## Reconciliation infrastructure for claims C2 and C3

Lemmas about the two loops of `readdir(ino, 0)`: the addition fold
(`addPhase`) and the removal fold (`remPhase`). -/

theorem acontains_eq_true {K V : Type} [DecidableEq K] {k : K} {m : List (K × V)} :
    acontains k m = true ↔ ∃ v, alookup k m = some v := by
  unfold acontains
  cases h : alookup k m <;> simp [h]

theorem acontains_eq_false {K V : Type} [DecidableEq K] {k : K} {m : List (K × V)} :
    acontains k m = false ↔ alookup k m = none := by
  unfold acontains
  cases h : alookup k m <;> simp [h]

theorem mem_akeys_acontains {K V : Type} [DecidableEq K] {n : K} {m : List (K × V)}
    (h : n ∈ akeys m) : acontains n m = true := by
  induction m with
  | nil => simp [akeys] at h
  | cons p t ih =>
    obtain ⟨k, v⟩ := p
    simp only [akeys, List.map_cons, List.mem_cons] at h
    rcases h with h | h
    · subst h
      simp [acontains, alookup]
    · by_cases hk : n = k
      · subst hk; simp [acontains, alookup]
      · have := ih h
        rw [acontains_eq_true] at this ⊢
        obtain ⟨v', hv⟩ := this
        exact ⟨v', by simp [alookup, hk, hv]⟩

theorem addPhase_nil (ino : Nat) (st : AddSt) : addPhase ino [] st = st := rfl

theorem addPhase_cons (ino : Nat) (f : AliyunFile) (L : List AliyunFile) (st : AddSt) :
    addPhase ino (f :: L) st = addPhase ino L (addStep ino st f) := rfl

/-- Counter-dominance facts threaded through the addition fold. -/
structure AddBounds (st : AddSt) : Prop where
  files_le : ∀ i, (alookup i st.files).isSome → i ≤ st.next_inode
  inodes_le : ∀ i, (alookup i st.inodes).isSome → i ≤ st.next_inode
  children_le : ∀ n c, alookup n st.node.children = some c → c ≤ st.next_inode

theorem addStep_contains {ino : Nat} {st : AddSt} {f : AliyunFile}
    (h : acontains f.name st.node.children = true) :
    addStep ino st f =
      { st with to_remove := st.to_remove.filter (fun n => decide (n ≠ f.name)) } := by
  simp [addStep, h]

theorem addStep_fresh {ino : Nat} {st : AddSt} {f : AliyunFile}
    (h : acontains f.name st.node.children = false) :
    addStep ino st f =
      { node := st.node.add_child f.name ((st.next_inode + 1) % 2 ^ 64)
        files := ainsert natLtb ((st.next_inode + 1) % 2 ^ 64) f st.files
        inodes :=
          if acontains ((st.next_inode + 1) % 2 ^ 64) st.inodes then st.inodes
          else ainsert natLtb ((st.next_inode + 1) % 2 ^ 64) (Inode.new ino) st.inodes
        next_inode := (st.next_inode + 1) % 2 ^ 64
        to_remove := st.to_remove } := by
  simp [addStep, h]

theorem addStep_parent (ino : Nat) (st : AddSt) (f : AliyunFile) :
    (addStep ino st f).node.parent = st.node.parent := by
  by_cases h : acontains f.name st.node.children = true
  · rw [addStep_contains h]
  · rw [addStep_fresh (by simpa using h)]
    rfl

theorem addPhase_parent (ino : Nat) :
    ∀ (L : List AliyunFile) (st : AddSt),
      (addPhase ino L st).node.parent = st.node.parent := by
  intro L
  induction L with
  | nil => intro st; rfl
  | cons f L ih =>
    intro st
    rw [addPhase_cons, ih, addStep_parent]

theorem addStep_next {ino : Nat} {st : AddSt} {f : AliyunFile}
    (hw : st.next_inode + 1 < 2 ^ 64) :
    st.next_inode ≤ (addStep ino st f).next_inode ∧
    (addStep ino st f).next_inode ≤ st.next_inode + 1 := by
  by_cases h : acontains f.name st.node.children = true
  · rw [addStep_contains h]; simp
  · rw [addStep_fresh (by simpa using h)]
    have : (st.next_inode + 1) % 2 ^ 64 = st.next_inode + 1 := Nat.mod_eq_of_lt hw
    simp only [this]
    omega

theorem addPhase_next (ino : Nat) :
    ∀ (L : List AliyunFile) (st : AddSt),
      st.next_inode + L.length < 2 ^ 64 →
      st.next_inode ≤ (addPhase ino L st).next_inode ∧
      (addPhase ino L st).next_inode ≤ st.next_inode + L.length := by
  intro L
  induction L with
  | nil => intro st _; simp [addPhase_nil]
  | cons f L ih =>
    intro st hw
    simp only [List.length_cons] at hw
    have hstep := @addStep_next ino st f (by omega)
    have := ih (addStep ino st f) (by omega)
    rw [addPhase_cons]
    simp only [List.length_cons]
    omega

theorem addStep_bounds {ino : Nat} {st : AddSt} {f : AliyunFile}
    (hb : AddBounds st) (hw : st.next_inode + 1 < 2 ^ 64) :
    AddBounds (addStep ino st f) := by
  by_cases h : acontains f.name st.node.children = true
  · rw [addStep_contains h]
    exact ⟨hb.files_le, hb.inodes_le, hb.children_le⟩
  · rw [addStep_fresh (by simpa using h)]
    have hmod : (st.next_inode + 1) % 2 ^ 64 = st.next_inode + 1 := Nat.mod_eq_of_lt hw
    refine ⟨?_, ?_, ?_⟩
    · intro i hi
      simp only [hmod] at hi ⊢
      by_cases heq : i = st.next_inode + 1
      · omega
      · rw [alookup_ainsert_ne natLtb heq] at hi
        have := hb.files_le i hi
        omega
    · intro i hi
      simp only [hmod] at hi ⊢
      by_cases hc : acontains (st.next_inode + 1) st.inodes = true
      · rw [if_pos (by simpa [hmod] using hc)] at hi
        have := hb.inodes_le i hi
        omega
      · rw [if_neg (by simpa [hmod] using hc)] at hi
        by_cases heq : i = st.next_inode + 1
        · omega
        · rw [alookup_ainsert_ne natLtb heq] at hi
          have := hb.inodes_le i hi
          omega
    · intro n c hn
      simp only [Inode.add_child, hmod] at hn ⊢
      by_cases heq : n = f.name
      · subst heq
        rw [alookup_ainsert_self] at hn
        cases hn
        omega
      · rw [alookup_ainsert_ne strLtb heq] at hn
        have := hb.children_le n c hn
        omega

theorem addPhase_bounds (ino : Nat) :
    ∀ (L : List AliyunFile) (st : AddSt),
      AddBounds st → st.next_inode + L.length < 2 ^ 64 →
      AddBounds (addPhase ino L st) := by
  intro L
  induction L with
  | nil => intro st hb _; exact hb
  | cons f L ih =>
    intro st hb hw
    simp only [List.length_cons] at hw
    rw [addPhase_cons]
    have hstep := @addStep_next ino st f (by omega)
    exact ih _ (addStep_bounds hb (by omega)) (by omega)

theorem addPhase_children_old (ino : Nat) :
    ∀ (L : List AliyunFile) (st : AddSt) (n : String),
      acontains n st.node.children = true →
      alookup n (addPhase ino L st).node.children = alookup n st.node.children := by
  intro L
  induction L with
  | nil => intro st n _; rfl
  | cons f L ih =>
    intro st n hc
    rw [addPhase_cons]
    by_cases h : acontains f.name st.node.children = true
    · rw [ih _ n (by rw [addStep_contains h]; exact hc), addStep_contains h]
    · have hne : n ≠ f.name := by
        intro heq; subst heq
        rw [hc] at h; exact h rfl
      have hstep := @addStep_fresh ino st f (by simpa using h)
      have hc' : acontains n (addStep ino st f).node.children = true := by
        rw [hstep]
        simp only [Inode.add_child]
        rw [acontains_eq_true] at hc ⊢
        obtain ⟨v, hv⟩ := hc
        exact ⟨v, by rw [alookup_ainsert_ne strLtb hne]; exact hv⟩
      rw [ih _ n hc', hstep]
      simp only [Inode.add_child]
      rw [alookup_ainsert_ne strLtb hne]

theorem addPhase_old_entries (ino : Nat) :
    ∀ (L : List AliyunFile) (st : AddSt) (i : Nat),
      st.next_inode + L.length < 2 ^ 64 → i ≤ st.next_inode →
      alookup i (addPhase ino L st).files = alookup i st.files ∧
      alookup i (addPhase ino L st).inodes = alookup i st.inodes := by
  intro L
  induction L with
  | nil => intro st i _ _; exact ⟨rfl, rfl⟩
  | cons f L ih =>
    intro st i hw hi
    simp only [List.length_cons] at hw
    rw [addPhase_cons]
    have hstep := @addStep_next ino st f (by omega)
    have hrec := ih (addStep ino st f) i (by omega) (by omega)
    by_cases h : acontains f.name st.node.children = true
    · rw [addStep_contains h] at hrec ⊢
      exact hrec
    · have hfr := @addStep_fresh ino st f (by simpa using h)
      have hmod : (st.next_inode + 1) % 2 ^ 64 = st.next_inode + 1 :=
        Nat.mod_eq_of_lt (by omega)
      have hne : i ≠ (st.next_inode + 1) % 2 ^ 64 := by omega
      refine ⟨?_, ?_⟩
      · rw [hrec.1, hfr]
        exact alookup_ainsert_ne natLtb hne _ _
      · rw [hrec.2, hfr]
        by_cases hc : acontains ((st.next_inode + 1) % 2 ^ 64) st.inodes = true
        · rw [if_pos hc]
        · rw [if_neg hc]
          exact alookup_ainsert_ne natLtb hne _ _

end AliyunFuse

namespace AliyunFuse

theorem alookup_aerase_sub {K V : Type} [DecidableEq K] {k k' : K} {m : List (K × V)} {v : V}
    (h : alookup k (aerase k' m) = some v) : alookup k m = some v := by
  by_cases heq : k = k'
  · subst heq; rw [alookup_aerase_self] at h; cases h
  · rwa [alookup_aerase_ne heq] at h

theorem alookup_aerase_none {K V : Type} [DecidableEq K] {k : K} (k' : K)
    {m : List (K × V)} (h : alookup k m = none) : alookup k (aerase k' m) = none := by
  by_cases heq : k = k'
  · subst heq; exact alookup_aerase_self k m
  · rwa [alookup_aerase_ne heq]

theorem addPhase_to_remove (ino : Nat) :
    ∀ (L : List AliyunFile) (st : AddSt),
      (∀ n, n ∈ st.to_remove → acontains n st.node.children = true) →
      ∀ n, (n ∈ (addPhase ino L st).to_remove ↔
        (n ∈ st.to_remove ∧ ∀ f ∈ L, f.name ≠ n)) := by
  intro L
  induction L with
  | nil => intro st _ n; simp [addPhase_nil]
  | cons f L ih =>
    intro st hsub n
    rw [addPhase_cons]
    by_cases h : acontains f.name st.node.children = true
    · have hstep := @addStep_contains ino st f h
      have hsub' : ∀ m, m ∈ (addStep ino st f).to_remove →
          acontains m (addStep ino st f).node.children = true := by
        intro m hm
        rw [hstep] at hm ⊢
        simp only [List.mem_filter] at hm
        exact hsub m hm.1
      rw [ih _ hsub' n, hstep]
      simp only [List.mem_filter, decide_eq_true_eq, List.mem_cons]
      constructor
      · rintro ⟨⟨hmem, hne⟩, hall⟩
        refine ⟨hmem, ?_⟩
        intro f' hf'
        rcases hf' with rfl | hf'
        · exact fun heq => hne heq.symm
        · exact hall f' hf'
      · rintro ⟨hmem, hall⟩
        exact ⟨⟨hmem, fun heq => hall f (by simp) heq.symm⟩,
          fun f' hf' => hall f' (by simp [hf'])⟩
    · have hb : acontains f.name st.node.children = false := by simpa using h
      have hstep := @addStep_fresh ino st f hb
      have hsub' : ∀ m, m ∈ (addStep ino st f).to_remove →
          acontains m (addStep ino st f).node.children = true := by
        intro m hm
        rw [hstep] at hm ⊢
        simp only [Inode.add_child]
        have := hsub m hm
        rw [acontains_eq_true] at this ⊢
        obtain ⟨v, hv⟩ := this
        have hne : m ≠ f.name := by
          intro heq; subst heq
          rw [acontains_eq_false] at hb
          rw [hb] at hv; cases hv
        exact ⟨v, by rw [alookup_ainsert_ne strLtb hne]; exact hv⟩
      rw [ih _ hsub' n, hstep]
      simp only [List.mem_cons]
      constructor
      · rintro ⟨hmem, hall⟩
        refine ⟨hmem, ?_⟩
        intro f' hf'
        rcases hf' with rfl | hf'
        · intro heq
          have hcontn := hsub n hmem
          rw [acontains_eq_true] at hcontn
          obtain ⟨v, hv⟩ := hcontn
          rw [← heq] at hv
          rw [acontains_eq_false.mp hb] at hv
          cases hv
        · exact hall f' hf'
      · rintro ⟨hmem, hall⟩
        exact ⟨hmem, fun f' hf' => hall f' (by simp [hf'])⟩

theorem addPhase_children_complete (ino : Nat) :
    ∀ (L : List AliyunFile) (st : AddSt),
      AddBounds st → st.next_inode + L.length < 2 ^ 64 →
      ∀ n c, alookup n (addPhase ino L st).node.children = some c →
        alookup n st.node.children = some c ∨
        (st.next_inode < c ∧ c ≤ (addPhase ino L st).next_inode ∧
         alookup n st.node.children = none ∧
         ∃ f, f ∈ L ∧ f.name = n ∧
           alookup c (addPhase ino L st).files = some f ∧
           alookup c (addPhase ino L st).inodes = some (Inode.new ino)) := by
  intro L
  induction L with
  | nil => intro st _ _ n c h; exact Or.inl h
  | cons f L ih =>
    intro st hb hw n c h
    simp only [List.length_cons] at hw
    rw [addPhase_cons] at h ⊢
    have hb' := @addStep_bounds ino st f hb (by omega)
    have hnext := @addStep_next ino st f (by omega)
    have hrec := ih (addStep ino st f) hb' (by omega) n c h
    by_cases hc : acontains f.name st.node.children = true
    · have hstep := @addStep_contains ino st f hc
      rcases hrec with hleft | ⟨h1, h2, h3, g, hg1, hg2, hg3, hg4⟩
      · rw [hstep] at hleft
        exact Or.inl hleft
      · rw [hstep] at h1 h3
        exact Or.inr ⟨h1, h2, h3, g, by simp [hg1], hg2, hg3, hg4⟩
    · have hbf : acontains f.name st.node.children = false := by simpa using hc
      have hstep := @addStep_fresh ino st f hbf
      have hmod : (st.next_inode + 1) % 2 ^ 64 = st.next_inode + 1 :=
        Nat.mod_eq_of_lt (by omega)
      have hnext2 := addPhase_next ino L (addStep ino st f) (by omega)
      rcases hrec with hleft | ⟨h1, h2, h3, g, hg1, hg2, hg3, hg4⟩
      · -- binding already present after the step
        rw [hstep] at hleft
        simp only [Inode.add_child] at hleft
        by_cases hn : n = f.name
        · subst hn
          rw [alookup_ainsert_self] at hleft
          cases hleft
          right
          have hcn : (st.next_inode + 1) % 2 ^ 64 ≤ (addStep ino st f).next_inode := by
            rw [hstep]
          refine ⟨by omega, by omega, ?_, f, by simp, rfl, ?_, ?_⟩
          · rw [acontains_eq_false] at hbf; exact hbf
          · have hold := addPhase_old_entries ino L (addStep ino st f)
              ((st.next_inode + 1) % 2 ^ 64) (by omega) (by rw [hstep])
            rw [hold.1, hstep]
            simp only [hmod]
            exact alookup_ainsert_self natLtb _ _ _
          · have hold := addPhase_old_entries ino L (addStep ino st f)
              ((st.next_inode + 1) % 2 ^ 64) (by omega) (by rw [hstep])
            rw [hold.2, hstep]
            have hnc : acontains ((st.next_inode + 1) % 2 ^ 64) st.inodes = false := by
              rw [acontains_eq_false]
              cases hli : alookup ((st.next_inode + 1) % 2 ^ 64) st.inodes with
              | none => rfl
              | some rec =>
                have := hb.inodes_le _ (by rw [hli]; rfl)
                omega
            simp only [hnc, Bool.false_eq_true, if_false]
            exact alookup_ainsert_self natLtb _ _ _
        · rw [alookup_ainsert_ne strLtb hn] at hleft
          exact Or.inl hleft
      · -- fresh at the recursive stage
        right
        have hn : alookup n st.node.children = none := by
          rw [hstep] at h3
          simp only [Inode.add_child] at h3
          by_cases heq : n = f.name
          · subst heq
            rw [alookup_ainsert_self] at h3; cases h3
          · rwa [alookup_ainsert_ne strLtb heq] at h3
        have hsn : st.next_inode ≤ (addStep ino st f).next_inode := hnext.1
        exact ⟨by omega, h2, hn, g, by simp [hg1], hg2, hg3, hg4⟩

theorem addPhase_inodes_complete (ino : Nat) :
    ∀ (L : List AliyunFile) (st : AddSt),
      AddBounds st → st.next_inode + L.length < 2 ^ 64 →
      ∀ i rec, alookup i (addPhase ino L st).inodes = some rec →
        alookup i st.inodes = some rec ∨
        (st.next_inode < i ∧ rec = Inode.new ino) := by
  intro L
  induction L with
  | nil => intro st _ _ i rec h; exact Or.inl h
  | cons f L ih =>
    intro st hb hw i rec h
    simp only [List.length_cons] at hw
    rw [addPhase_cons] at h
    have hb' := @addStep_bounds ino st f hb (by omega)
    have hnext := @addStep_next ino st f (by omega)
    have hrec := ih (addStep ino st f) hb' (by omega) i rec h
    by_cases hc : acontains f.name st.node.children = true
    · have hstep := @addStep_contains ino st f hc
      rcases hrec with hleft | ⟨h1, h2⟩
      · rw [hstep] at hleft; exact Or.inl hleft
      · rw [hstep] at h1; exact Or.inr ⟨h1, h2⟩
    · have hbf : acontains f.name st.node.children = false := by simpa using hc
      have hstep := @addStep_fresh ino st f hbf
      have hmod : (st.next_inode + 1) % 2 ^ 64 = st.next_inode + 1 :=
        Nat.mod_eq_of_lt (by omega)
      rcases hrec with hleft | ⟨h1, h2⟩
      · rw [hstep] at hleft
        simp only at hleft
        by_cases hnc : acontains ((st.next_inode + 1) % 2 ^ 64) st.inodes = true
        · rw [if_pos hnc] at hleft
          exact Or.inl hleft
        · rw [if_neg hnc] at hleft
          by_cases heq : i = (st.next_inode + 1) % 2 ^ 64
          · subst heq
            rw [alookup_ainsert_self] at hleft
            cases hleft
            exact Or.inr ⟨by omega, rfl⟩
          · rw [alookup_ainsert_ne natLtb heq] at hleft
            exact Or.inl hleft
      · rw [hstep] at h1
        simp only [hmod] at h1
        exact Or.inr ⟨by omega, h2⟩

theorem addPhase_children_inj (ino : Nat) :
    ∀ (L : List AliyunFile) (st : AddSt),
      AddBounds st → st.next_inode + L.length < 2 ^ 64 →
      (∀ n₁ n₂ c, alookup n₁ st.node.children = some c →
        alookup n₂ st.node.children = some c → n₁ = n₂) →
      ∀ n₁ n₂ c, alookup n₁ (addPhase ino L st).node.children = some c →
        alookup n₂ (addPhase ino L st).node.children = some c → n₁ = n₂ := by
  intro L
  induction L with
  | nil => intro st _ _ hinj; exact hinj
  | cons f L ih =>
    intro st hb hw hinj
    simp only [List.length_cons] at hw
    rw [addPhase_cons]
    have hb' := @addStep_bounds ino st f hb (by omega)
    have hnext := @addStep_next ino st f (by omega)
    by_cases hc : acontains f.name st.node.children = true
    · have hstep := @addStep_contains ino st f hc
      refine ih (addStep ino st f) hb' (by omega) ?_
      rw [hstep]
      exact hinj
    · have hbf : acontains f.name st.node.children = false := by simpa using hc
      have hstep := @addStep_fresh ino st f hbf
      have hmod : (st.next_inode + 1) % 2 ^ 64 = st.next_inode + 1 :=
        Nat.mod_eq_of_lt (by omega)
      refine ih (addStep ino st f) hb' (by omega) ?_
      rw [hstep]
      simp only [Inode.add_child]
      intro n₁ n₂ c h₁ h₂
      by_cases he₁ : n₁ = f.name
      · subst he₁
        rw [alookup_ainsert_self] at h₁
        cases h₁
        by_cases he₂ : n₂ = f.name
        · exact he₂.symm
        · rw [alookup_ainsert_ne strLtb he₂] at h₂
          have := hb.children_le n₂ _ h₂
          omega
      · rw [alookup_ainsert_ne strLtb he₁] at h₁
        by_cases he₂ : n₂ = f.name
        · subst he₂
          rw [alookup_ainsert_self] at h₂
          cases h₂
          have := hb.children_le n₁ _ h₁
          omega
        · rw [alookup_ainsert_ne strLtb he₂] at h₂
          exact hinj n₁ n₂ c h₁ h₂

theorem addPhase_fresh_inventory (ino : Nat) :
    ∀ (L : List AliyunFile) (st : AddSt),
      AddBounds st → st.next_inode + L.length < 2 ^ 64 →
      ∀ i, (alookup i (addPhase ino L st).inodes).isSome →
        (alookup i st.inodes).isSome ∨
        (st.next_inode < i ∧ ∃ f,
          alookup f.name (addPhase ino L st).node.children = some i ∧
          alookup i (addPhase ino L st).files = some f ∧
          alookup f.name st.node.children = none) := by
  intro L
  induction L with
  | nil => intro st _ _ i h; exact Or.inl h
  | cons f L ih =>
    intro st hb hw i h
    simp only [List.length_cons] at hw
    rw [addPhase_cons] at h ⊢
    have hb' := @addStep_bounds ino st f hb (by omega)
    have hnext := @addStep_next ino st f (by omega)
    have hrec := ih (addStep ino st f) hb' (by omega) i h
    by_cases hc : acontains f.name st.node.children = true
    · have hstep := @addStep_contains ino st f hc
      rcases hrec with hleft | ⟨h1, g, hg1, hg2, hg3⟩
      · rw [hstep] at hleft; exact Or.inl hleft
      · rw [hstep] at h1 hg3
        exact Or.inr ⟨h1, g, hg1, hg2, hg3⟩
    · have hbf : acontains f.name st.node.children = false := by simpa using hc
      have hstep := @addStep_fresh ino st f hbf
      have hmod : (st.next_inode + 1) % 2 ^ 64 = st.next_inode + 1 :=
        Nat.mod_eq_of_lt (by omega)
      rcases hrec with hleft | ⟨h1, g, hg1, hg2, hg3⟩
      · rw [hstep] at hleft
        simp only at hleft
        by_cases hnc : acontains ((st.next_inode + 1) % 2 ^ 64) st.inodes = true
        · rw [if_pos hnc] at hleft
          exact Or.inl hleft
        · rw [if_neg hnc] at hleft
          by_cases heq : i = (st.next_inode + 1) % 2 ^ 64
          · subst heq
            right
            refine ⟨by omega, f, ?_, ?_, ?_⟩
            · have hch : alookup f.name (addStep ino st f).node.children =
                  some ((st.next_inode + 1) % 2 ^ 64) := by
                rw [hstep]
                simp only [Inode.add_child]
                exact alookup_ainsert_self strLtb _ _ _
              have hcont : acontains f.name (addStep ino st f).node.children = true := by
                rw [acontains_eq_true]; exact ⟨_, hch⟩
              rw [addPhase_children_old ino L _ _ hcont, hch]
            · have hold := addPhase_old_entries ino L (addStep ino st f)
                ((st.next_inode + 1) % 2 ^ 64) (by omega) (by rw [hstep])
              rw [hold.1, hstep]
              simp only [hmod]
              exact alookup_ainsert_self natLtb _ _ _
            · rw [acontains_eq_false] at hbf; exact hbf
          · rw [alookup_ainsert_ne natLtb heq] at hleft
            exact Or.inl hleft
      · right
        have hn : alookup g.name st.node.children = none := by
          rw [hstep] at hg3
          simp only [Inode.add_child] at hg3
          by_cases heq : g.name = f.name
          · rw [heq, alookup_ainsert_self] at hg3; cases hg3
          · rwa [alookup_ainsert_ne strLtb heq] at hg3
        rw [hstep] at h1
        simp only [hmod] at h1
        exact ⟨by omega, g, hg1, hg2, hn⟩

end AliyunFuse

namespace AliyunFuse

theorem remPhase_nil (st : RemSt) : remPhase [] st = st := rfl

theorem remPhase_cons (n : String) (names : List String) (st : RemSt) :
    remPhase (n :: names) st = remPhase names (remStep st n) := rfl

theorem remStep_parent (st : RemSt) (n : String) :
    (remStep st n).node.parent = st.node.parent := by
  unfold remStep
  cases alookup n st.node.children <;> rfl

theorem remPhase_parent : ∀ (names : List String) (st : RemSt),
    (remPhase names st).node.parent = st.node.parent := by
  intro names
  induction names with
  | nil => intro st; rfl
  | cons n names ih =>
    intro st
    rw [remPhase_cons, ih, remStep_parent]

theorem remStep_none {st : RemSt} {m : String}
    (h : alookup m st.node.children = none) : remStep st m = st := by
  unfold remStep
  rw [h]

theorem remStep_some {st : RemSt} {m : String} {c₀ : Nat}
    (h : alookup m st.node.children = some c₀) :
    remStep st m = ⟨{ st.node with children := aerase m st.node.children },
      aerase c₀ st.files, aerase c₀ st.inodes⟩ := by
  unfold remStep
  rw [h]

theorem remPhase_sub : ∀ (names : List String) (st : RemSt),
    (∀ n c, alookup n (remPhase names st).node.children = some c →
      alookup n st.node.children = some c) ∧
    (∀ i v, alookup i (remPhase names st).files = some v →
      alookup i st.files = some v) ∧
    (∀ i v, alookup i (remPhase names st).inodes = some v →
      alookup i st.inodes = some v) := by
  intro names
  induction names with
  | nil => intro st; exact ⟨fun n c h => h, fun i v h => h, fun i v h => h⟩
  | cons m names ih =>
    intro st
    rw [remPhase_cons]
    have hrec := ih (remStep st m)
    cases hm : alookup m st.node.children with
    | none =>
      rw [remStep_none hm] at hrec ⊢
      exact hrec
    | some c₀ =>
      rw [remStep_some hm] at hrec ⊢
      refine ⟨?_, ?_, ?_⟩
      · intro n c h
        have := hrec.1 n c h
        exact alookup_aerase_sub this
      · intro i v h
        have := hrec.2.1 i v h
        exact alookup_aerase_sub this
      · intro i v h
        have := hrec.2.2 i v h
        exact alookup_aerase_sub this

theorem remPhase_none : ∀ (names : List String) (st : RemSt),
    (∀ n, alookup n st.node.children = none →
      alookup n (remPhase names st).node.children = none) ∧
    (∀ i, alookup i st.files = none → alookup i (remPhase names st).files = none) ∧
    (∀ i, alookup i st.inodes = none → alookup i (remPhase names st).inodes = none) := by
  intro names
  induction names with
  | nil => intro st; exact ⟨fun n h => h, fun i h => h, fun i h => h⟩
  | cons m names ih =>
    intro st
    rw [remPhase_cons]
    have hrec := ih (remStep st m)
    cases hm : alookup m st.node.children with
    | none =>
      rw [remStep_none hm] at hrec ⊢
      exact hrec
    | some c₀ =>
      rw [remStep_some hm] at hrec ⊢
      refine ⟨?_, ?_, ?_⟩
      · intro n h
        exact hrec.1 n (alookup_aerase_none m h)
      · intro i h
        exact hrec.2.1 i (alookup_aerase_none c₀ h)
      · intro i h
        exact hrec.2.2 i (alookup_aerase_none c₀ h)

theorem remPhase_children_mem : ∀ (names : List String) (st : RemSt) (n : String),
    n ∈ names → alookup n (remPhase names st).node.children = none := by
  intro names
  induction names with
  | nil => intro st n h; simp at h
  | cons m names ih =>
    intro st n hmem
    rw [remPhase_cons]
    by_cases heq : n = m
    · subst heq
      have hstepnone : alookup n (remStep st n).node.children = none := by
        unfold remStep
        cases hm : alookup n st.node.children with
        | none => simpa using hm
        | some c₀ => simpa using alookup_aerase_self n st.node.children
      exact (remPhase_none names (remStep st n)).1 n hstepnone
    · have hmem' : n ∈ names := by
        rcases List.mem_cons.mp hmem with h | h
        · exact absurd h heq
        · exact h
      exact ih (remStep st m) n hmem'

theorem remPhase_children_not_mem : ∀ (names : List String) (st : RemSt) (n : String),
    (∀ m ∈ names, m ≠ n) →
    alookup n (remPhase names st).node.children = alookup n st.node.children := by
  intro names
  induction names with
  | nil => intro st n _; rfl
  | cons m names ih =>
    intro st n hall
    rw [remPhase_cons]
    have hne : m ≠ n := hall m (by simp)
    have hrec := ih (remStep st m) n (fun m' hm' => hall m' (by simp [hm']))
    rw [hrec]
    unfold remStep
    cases hm : alookup m st.node.children with
    | none => rfl
    | some c₀ =>
      simp only
      exact alookup_aerase_ne (fun h => hne h.symm) _

theorem remPhase_untouched : ∀ (names : List String) (st : RemSt) (i : Nat),
    (∀ n ∈ names, alookup n st.node.children ≠ some i) →
    alookup i (remPhase names st).files = alookup i st.files ∧
    alookup i (remPhase names st).inodes = alookup i st.inodes := by
  intro names
  induction names with
  | nil => intro st i _; exact ⟨rfl, rfl⟩
  | cons m names ih =>
    intro st i hall
    rw [remPhase_cons]
    unfold remStep
    cases hm : alookup m st.node.children with
    | none =>
      exact ih st i (fun n hn => by
        have := hall n (by simp [hn])
        exact this)
    | some c₀ =>
      have hne : c₀ ≠ i := by
        intro heq; subst heq
        exact hall m (by simp) hm
      have hrec := ih ⟨{ st.node with children := aerase m st.node.children },
          aerase c₀ st.files, aerase c₀ st.inodes⟩ i ?_
      · refine ⟨?_, ?_⟩
        · rw [hrec.1]
          exact alookup_aerase_ne (fun h => hne h.symm) _
        · rw [hrec.2]
          exact alookup_aerase_ne (fun h => hne h.symm) _
      · intro n hn
        simp only
        by_cases heq : n = m
        · subst heq
          rw [alookup_aerase_self]
          exact fun h => by cases h
        · rw [alookup_aerase_ne heq]
          exact hall n (by simp [hn])

theorem remPhase_removed : ∀ (names : List String) (st : RemSt) (n : String) (c : Nat),
    n ∈ names → alookup n st.node.children = some c →
    alookup c (remPhase names st).files = none ∧
    alookup c (remPhase names st).inodes = none := by
  intro names
  induction names with
  | nil => intro st n c h; simp at h
  | cons m names ih =>
    intro st n c hmem hbind
    rw [remPhase_cons]
    by_cases heq : n = m
    · subst heq
      have hstep : remStep st n =
          ⟨{ st.node with children := aerase n st.node.children },
            aerase c st.files, aerase c st.inodes⟩ := by
        unfold remStep
        rw [hbind]
      rw [hstep]
      have hnone := remPhase_none names ⟨{ st.node with children := aerase n st.node.children },
        aerase c st.files, aerase c st.inodes⟩
      exact ⟨hnone.2.1 c (alookup_aerase_self c st.files),
        hnone.2.2 c (alookup_aerase_self c st.inodes)⟩
    · have hmem' : n ∈ names := by
        rcases List.mem_cons.mp hmem with h | h
        · exact absurd h heq
        · exact h
      unfold remStep
      cases hm : alookup m st.node.children with
      | none => exact ih st n c hmem' hbind
      | some c₀ =>
        refine ih _ n c hmem' ?_
        simp only
        rw [alookup_aerase_ne heq]
        exact hbind

end AliyunFuse

namespace AliyunFuse

/-! ## The post-state of `readdir(ino, 0)` and claim C2 -/

/-- The addition fold of `readdir(ino, 0)` started from the directory's
current entry, with `to_remove` initialized to all current child names. -/
def reconcileAdd (s : FSState) (ino : Nat) (inode0 : Inode) (L : List AliyunFile) : AddSt :=
  addPhase ino L ⟨inode0, s.files, s.inodes, s.next_inode, akeys inode0.children⟩

/-- The store after both reconciliation folds and the write-back of the
directory's inode entry. -/
def reconcileState (s : FSState) (ino : Nat) (inode0 : Inode) (L : List AliyunFile) : FSState :=
  let st1 := reconcileAdd s ino inode0 L
  let st2 := remPhase st1.to_remove ⟨st1.node, st1.files, st1.inodes⟩
  { s with files := st2.files,
           inodes := ainsert natLtb ino st2.node st2.inodes,
           next_inode := st1.next_inode }

/-- Whatever the emission outcome, a `readdir(ino, 0)` whose listing
succeeded leaves the store at `reconcileState`. -/
theorem readdir0_state (s : FSState) (o : DriveOracle) (ino : Nat)
    (inode0 : Inode) (file : AliyunFile) (L : List AliyunFile)
    (hino : alookup ino s.inodes = some inode0)
    (hfile : alookup ino s.files = some file)
    (hlist : o.listAll file.id = some L) :
    (s.readdir o ino 0).2.1 = reconcileState s ino inode0 L := by
  simp only [FSState.readdir, hino, hfile, hlist]
  rw [if_pos trivial]
  split <;> rfl

theorem alookup_some_mem_akeys {K V : Type} [DecidableEq K] {n : K} {m : List (K × V)}
    {c : V} (h : alookup n m = some c) : n ∈ akeys m := by
  induction m with
  | nil => cases h
  | cons p t ih =>
    obtain ⟨k, v⟩ := p
    simp only [alookup] at h
    by_cases heq : n = k
    · subst heq; simp [akeys]
    · rw [if_neg heq] at h
      simp only [akeys, List.map_cons, List.mem_cons]
      exact Or.inr (ih h)

theorem addStep_contains_mono {ino : Nat} {st : AddSt} {f : AliyunFile} {n : String}
    (h : acontains n st.node.children = true) :
    acontains n (addStep ino st f).node.children = true := by
  by_cases hc : acontains f.name st.node.children = true
  · rw [addStep_contains hc]; exact h
  · rw [addStep_fresh (by simpa using hc)]
    simp only [Inode.add_child]
    rw [acontains_eq_true] at h ⊢
    obtain ⟨v, hv⟩ := h
    by_cases heq : n = f.name
    · exact ⟨_, by rw [heq]; exact alookup_ainsert_self strLtb _ _ _⟩
    · exact ⟨v, by rw [alookup_ainsert_ne strLtb heq]; exact hv⟩

theorem addPhase_contains_mono (ino : Nat) :
    ∀ (L : List AliyunFile) (st : AddSt) (n : String),
      acontains n st.node.children = true →
      acontains n (addPhase ino L st).node.children = true := by
  intro L
  induction L with
  | nil => intro st n h; exact h
  | cons f L ih =>
    intro st n h
    rw [addPhase_cons]
    exact ih _ n (addStep_contains_mono h)

theorem addPhase_listed_contained (ino : Nat) :
    ∀ (L : List AliyunFile) (st : AddSt) (f : AliyunFile), f ∈ L →
      acontains f.name (addPhase ino L st).node.children = true := by
  intro L
  induction L with
  | nil => intro st f h; simp at h
  | cons g L ih =>
    intro st f hmem
    rw [addPhase_cons]
    rcases List.mem_cons.mp hmem with rfl | hmem'
    · refine addPhase_contains_mono ino L _ _ ?_
      by_cases hc : acontains f.name st.node.children = true
      · rw [addStep_contains hc]; exact hc
      · rw [addStep_fresh (by simpa using hc)]
        simp only [Inode.add_child]
        rw [acontains_eq_true]
        exact ⟨_, alookup_ainsert_self strLtb _ _ _⟩
    · exact ih _ f hmem'

theorem nodup_names_inj {L : List AliyunFile}
    (h : (L.map AliyunFile.name).Nodup) :
    ∀ f g, f ∈ L → g ∈ L → f.name = g.name → f = g := by
  induction L with
  | nil => intro f g hf; simp at hf
  | cons a t ih =>
    intro f g hf hg hfg
    simp only [List.map_cons, List.nodup_cons] at h
    rcases List.mem_cons.mp hf with rfl | hf' <;>
      rcases List.mem_cons.mp hg with rfl | hg'
    · rfl
    · exact absurd (hfg ▸ List.mem_map_of_mem AliyunFile.name hg') h.1
    · exact absurd (hfg ▸ List.mem_map_of_mem AliyunFile.name hf') (by
        intro hm; exact h.1 (by simpa [hfg] using hm))
    · exact ih h.2 f g hf' hg' hfg

/-- **C2**: reconciliation during `readdir(parent, 0)` (fresh listing with
distinct names, no inode-counter wrap, and a well-formed store: all table
keys, child links and the directory's own number at most `next_inode`, no
duplicated child links, no self-link) keeps the existing child inode for
every listed name already present, allocates a brand-new inode and stores
the file record (plus a fresh inode entry with parent `ino`) for every
listed name not present, and removes the child link, the inode entry and
the file record of every previously-present name absent from the listing. -/
theorem c2_readdir_reconciliation (s : FSState) (o : DriveOracle) (ino : Nat)
    (inode0 : Inode) (file : AliyunFile) (L : List AliyunFile)
    (hino : alookup ino s.inodes = some inode0)
    (hfile : alookup ino s.files = some file)
    (hlist : o.listAll file.id = some L)
    (hnodup : (L.map AliyunFile.name).Nodup)
    (hwrap : s.next_inode + L.length < 2 ^ 64)
    (hfle : ∀ i, (alookup i s.files).isSome → i ≤ s.next_inode)
    (hile : ∀ i, (alookup i s.inodes).isSome → i ≤ s.next_inode)
    (hcle : ∀ n c, alookup n inode0.children = some c → c ≤ s.next_inode)
    (hself : ∀ n, alookup n inode0.children ≠ some ino) :
    ∃ node', alookup ino (s.readdir o ino 0).2.1.inodes = some node' ∧
    (∀ n c, alookup n inode0.children = some c → (∃ f, f ∈ L ∧ f.name = n) →
      alookup n node'.children = some c) ∧
    (∀ f, f ∈ L → alookup f.name inode0.children = none →
      ∃ c, alookup f.name node'.children = some c ∧
        s.next_inode < c ∧
        alookup c s.inodes = none ∧ alookup c s.files = none ∧
        alookup c (s.readdir o ino 0).2.1.files = some f ∧
        alookup c (s.readdir o ino 0).2.1.inodes = some (Inode.new ino)) ∧
    (∀ n c, alookup n inode0.children = some c → (∀ f, f ∈ L → f.name ≠ n) →
      alookup n node'.children = none ∧
      alookup c (s.readdir o ino 0).2.1.files = none ∧
      alookup c (s.readdir o ino 0).2.1.inodes = none) := by
  rw [readdir0_state s o ino inode0 file L hino hfile hlist]
  set st0 : AddSt := ⟨inode0, s.files, s.inodes, s.next_inode, akeys inode0.children⟩ with hst0
  have hb0 : AddBounds st0 := ⟨hfle, hile, hcle⟩
  set st1 := addPhase ino L st0 with hst1
  set st2 := remPhase st1.to_remove ⟨st1.node, st1.files, st1.inodes⟩ with hst2
  have hstate : reconcileState s ino inode0 L =
      { s with files := st2.files,
               inodes := ainsert natLtb ino st2.node st2.inodes,
               next_inode := st1.next_inode } := rfl
  rw [hstate]
  have hsub0 : ∀ n ∈ st0.to_remove, acontains n st0.node.children = true := by
    intro n hn
    exact mem_akeys_acontains hn
  have hrem := addPhase_to_remove ino L st0 hsub0
  have hnext := addPhase_next ino L st0 hwrap
  have hinoLE : ino ≤ s.next_inode := hile ino (by rw [hino]; rfl)
  have hst0next : st0.next_inode = s.next_inode := rfl
  refine ⟨st2.node, by simp [alookup_ainsert_self], ?_, ?_, ?_⟩
  · -- kept names
    intro n c hbind hlisted
    have hcont : acontains n st0.node.children = true := by
      rw [acontains_eq_true]; exact ⟨c, hbind⟩
    have h1 : alookup n st1.node.children = some c := by
      rw [hst1, addPhase_children_old ino L st0 n hcont]
      exact hbind
    have hnot : n ∉ st1.to_remove := by
      intro hmem
      obtain ⟨f, hf, hfn⟩ := hlisted
      exact ((hrem n).mp hmem).2 f hf hfn
    rw [hst2, remPhase_children_not_mem st1.to_remove _ n
      (fun m hm heq => hnot (heq ▸ hm))]
    exact h1
  · -- new names
    intro f hf hnone
    have hcont := addPhase_listed_contained ino L st0 f hf
    rw [← hst1] at hcont
    rw [acontains_eq_true] at hcont
    obtain ⟨c, hc⟩ := hcont
    have hchar := addPhase_children_complete ino L st0 hb0 hwrap f.name c (by rw [← hst1] at *; exact hc)
    rcases hchar with hold | ⟨hlt, hle, _, g, hgL, hgname, hgfiles, hginodes⟩
    · rw [hnone] at hold; cases hold
    · have hgf : f = g := (nodup_names_inj hnodup g f hgL hf hgname).symm
      subst hgf
      have hnotrem : f.name ∉ st1.to_remove := by
        intro hmem
        have := ((hrem f.name).mp hmem).1
        have hcontold := mem_akeys_acontains this
        rw [acontains_eq_false.mpr hnone] at hcontold
        cases hcontold
      have huntouched : ∀ n ∈ st1.to_remove, alookup n st1.node.children ≠ some c := by
        intro n hn heq
        have hmem := (hrem n).mp hn
        have hcontold := mem_akeys_acontains hmem.1
        rw [acontains_eq_true] at hcontold
        obtain ⟨c', hc'⟩ := hcontold
        have : alookup n st1.node.children = some c' := by
          rw [hst1, addPhase_children_old ino L st0 n (by rw [acontains_eq_true]; exact ⟨c', hc'⟩)]
          exact hc'
        rw [this] at heq
        cases heq
        have := hcle n c hc'
        omega
      have hkeep := remPhase_untouched st1.to_remove ⟨st1.node, st1.files, st1.inodes⟩ c huntouched
      have hcne : c ≠ ino := by omega
      refine ⟨c, ?_, hlt, ?_, ?_, ?_, ?_⟩
      · rw [hst2, remPhase_children_not_mem st1.to_remove _ f.name
          (fun m hm heq => hnotrem (heq ▸ hm))]
        exact hc
      · cases hli : alookup c s.inodes with
        | none => rfl
        | some rec =>
          have := hile c (by rw [hli]; rfl)
          omega
      · cases hlf : alookup c s.files with
        | none => rfl
        | some v =>
          have := hfle c (by rw [hlf]; rfl)
          omega
      · rw [hst2]
        rw [hkeep.1]
        exact hgfiles
      · rw [alookup_ainsert_ne natLtb hcne]
        rw [hst2]
        rw [hkeep.2]
        exact hginodes
  · -- removed names
    intro n c hbind hunlisted
    have hcont : acontains n st0.node.children = true := by
      rw [acontains_eq_true]; exact ⟨c, hbind⟩
    have h1 : alookup n st1.node.children = some c := by
      rw [hst1, addPhase_children_old ino L st0 n hcont]
      exact hbind
    have hmem : n ∈ st1.to_remove := by
      rw [hrem n]
      exact ⟨alookup_some_mem_akeys hbind, hunlisted⟩
    have hcne : c ≠ ino := by
      intro heq; subst heq
      exact hself n hbind
    refine ⟨?_, ?_, ?_⟩
    · rw [hst2]
      exact remPhase_children_mem st1.to_remove _ n hmem
    · rw [hst2]
      exact (remPhase_removed st1.to_remove _ n c hmem h1).1
    · rw [alookup_ainsert_ne natLtb hcne, hst2]
      exact (remPhase_removed st1.to_remove _ n c hmem h1).2

end AliyunFuse

namespace AliyunFuse

def c2root : AliyunFile := { id := "", name := "root", type := .folder, size := 100 }

def c2fa : AliyunFile := { id := "ida", name := "a", type := .file, size := 10 }

def c2fb : AliyunFile := { id := "idb", name := "b", type := .folder, size := 0 }

def c2fc : AliyunFile := { id := "idc", name := "c", type := .file, size := 5 }

def c2Node : Inode := { children := [("a", 2), ("b", 3)], parent := 0 }

def c2State : FSState :=
  { file_cache := { read_buffer_size := 4, cache := [] },
    files := [(1, c2root), (2, c2fa), (3, c2fb)],
    inodes := [(1, c2Node), (2, Inode.new 1), (3, Inode.new 1)],
    next_inode := 3, next_fh := 2 }

def c2Oracle : DriveOracle :=
  { getDownloadUrl := fun _ => none, download := fun _ _ _ => none,
    listAll := fun _ => some [c2fa, c2fc], getQuota := none }

/-- Concrete instance of `c2_readdir_reconciliation` (the spec's
re-listing scenario): children were `{"a" ↦ 2, "b" ↦ 3}`, the new listing
is `{"a", "c"}`; inode 2 is preserved for `"a"`, inode 3 and its file
record are removed, and a brand-new inode is allocated for `"c"`. -/
theorem c2_readdir_reconciliation_witness :
    ∃ node', alookup 1 (c2State.readdir c2Oracle 1 0).2.1.inodes = some node' ∧
      alookup "a" node'.children = some 2 ∧
      (∃ c, alookup "c" node'.children = some c ∧ 3 < c) ∧
      alookup "b" node'.children = none ∧
      alookup 3 (c2State.readdir c2Oracle 1 0).2.1.files = none ∧
      alookup 3 (c2State.readdir c2Oracle 1 0).2.1.inodes = none := by
  obtain ⟨node', hnode, hkept, hnew, hrem⟩ :=
    c2_readdir_reconciliation c2State c2Oracle 1 c2Node c2root [c2fa, c2fc]
      (by decide) (by decide) rfl (by decide) (by decide)
      (by intro i h
          simp only [c2State, alookup] at h
          split_ifs at h with h1 h2 h3 <;>
            first
            | (simp only [c2State]; omega)
            | simp at h)
      (by intro i h
          simp only [c2State, alookup] at h
          split_ifs at h with h1 h2 h3 <;>
            first
            | (simp only [c2State]; omega)
            | simp at h)
      (by intro n c h
          simp only [c2Node, alookup] at h
          split_ifs at h with h1 h2 <;>
            (cases h; (simp only [c2State]; omega)))
      (by intro n h
          simp only [c2Node, alookup] at h
          split_ifs at h with h1 h2 <;> simp at h)
  have hremb := hrem "b" 3 (by decide) (by decide)
  refine ⟨node', hnode, ?_, ?_, hremb.1, hremb.2.1, hremb.2.2⟩
  · exact hkept "a" 2 (by decide) ⟨c2fa, by simp, by decide⟩
  · obtain ⟨c, hc1, hc2, _⟩ := hnew c2fc (by simp) (by decide)
    exact ⟨c, hc1, by simpa [c2State] using hc2⟩

end AliyunFuse

namespace AliyunFuse

/-! ## Claim C3 — the parent/child link invariant -/

/-- The inductive invariant of the tree store. `parent_link` is the claim's
property (restricted to present parents); the companion fields are needed
to push it through reconciliation: counter dominance, no self-parenting,
forward link soundness and global injectivity of child links. -/
structure TreeInv (s : FSState) : Prop where
  files_le : ∀ i, (alookup i s.files).isSome → i ≤ s.next_inode
  inodes_le : ∀ i, (alookup i s.inodes).isSome → i ≤ s.next_inode
  children_le : ∀ p prec n c, alookup p s.inodes = some prec →
    alookup n prec.children = some c → c ≤ s.next_inode
  parent_le : ∀ i rec, alookup i s.inodes = some rec → rec.parent ≤ s.next_inode
  no_self : ∀ i rec, alookup i s.inodes = some rec → rec.parent ≠ i
  link_ok : ∀ p prec n c, alookup p s.inodes = some prec →
    alookup n prec.children = some c →
    (∃ crec, alookup c s.inodes = some crec ∧ crec.parent = p) ∧
    (∃ f, alookup c s.files = some f ∧ f.name = n)
  link_inj : ∀ p₁ prec₁ n₁ p₂ prec₂ n₂ c,
    alookup p₁ s.inodes = some prec₁ → alookup n₁ prec₁.children = some c →
    alookup p₂ s.inodes = some prec₂ → alookup n₂ prec₂.children = some c →
    p₁ = p₂ ∧ n₁ = n₂
  parent_link : ∀ i rec prec, alookup i s.inodes = some rec → rec.parent ≠ 0 →
    alookup rec.parent s.inodes = some prec →
    ∃ f, alookup i s.files = some f ∧ alookup f.name prec.children = some i

/-- Reconciliation (`readdir(ino, 0)` with a successful listing) preserves
the tree invariant, and grows the counter by at most the listing length. -/
theorem reconcile_preserves_TreeInv (s : FSState) (ino : Nat)
    (inode0 : Inode) (L : List AliyunFile)
    (hino : alookup ino s.inodes = some inode0)
    (hinv : TreeInv s)
    (hwrap : s.next_inode + L.length < 2 ^ 64) :
    TreeInv (reconcileState s ino inode0 L) ∧
    (reconcileState s ino inode0 L).next_inode ≤ s.next_inode + L.length := by
  set st0 : AddSt := ⟨inode0, s.files, s.inodes, s.next_inode, akeys inode0.children⟩ with hst0
  have hb0 : AddBounds st0 :=
    ⟨hinv.files_le, hinv.inodes_le, fun n c h => hinv.children_le ino inode0 n c hino h⟩
  set st1 := addPhase ino L st0 with hst1
  set st2 := remPhase st1.to_remove ⟨st1.node, st1.files, st1.inodes⟩ with hst2
  have hstate : reconcileState s ino inode0 L =
      { s with files := st2.files,
               inodes := ainsert natLtb ino st2.node st2.inodes,
               next_inode := st1.next_inode } := rfl
  have hst0next : st0.next_inode = s.next_inode := rfl
  have hb1 : AddBounds st1 := addPhase_bounds ino L st0 hb0 hwrap
  have hnext := addPhase_next ino L st0 hwrap
  have hinoLE : ino ≤ s.next_inode := hinv.inodes_le ino (by rw [hino]; rfl)
  have hsub0 : ∀ n ∈ st0.to_remove, acontains n st0.node.children = true :=
    fun n hn => mem_akeys_acontains hn
  have hrem := addPhase_to_remove ino L st0 hsub0
  have holdbind : ∀ n c, alookup n inode0.children = some c →
      alookup n st1.node.children = some c := by
    intro n c h
    rw [hst1, addPhase_children_old ino L st0 n (by rw [acontains_eq_true]; exact ⟨c, h⟩)]
    exact h
  have hinj0 : ∀ n₁ n₂ c, alookup n₁ inode0.children = some c →
      alookup n₂ inode0.children = some c → n₁ = n₂ :=
    fun n₁ n₂ c h₁ h₂ => (hinv.link_inj ino inode0 n₁ ino inode0 n₂ c hino h₁ hino h₂).2
  have h1inj := addPhase_children_inj ino L st0 hb0 hwrap hinj0
  have hchild_ne_ino : ∀ n c, alookup n inode0.children = some c → c ≠ ino := by
    intro n c h heq
    obtain ⟨⟨crec, hcrec, hpar⟩, _⟩ := hinv.link_ok ino inode0 n c hino h
    rw [heq, hino] at hcrec
    cases hcrec
    exact hinv.no_self ino inode0 hino hpar
  -- rem names carry old bindings
  have hrem_old : ∀ n, n ∈ st1.to_remove →
      ∃ c, alookup n inode0.children = some c ∧ alookup n st1.node.children = some c := by
    intro n hn
    have hmem := ((hrem n).mp hn).1
    have hcont := mem_akeys_acontains hmem
    rw [acontains_eq_true] at hcont
    obtain ⟨c, hc⟩ := hcont
    exact ⟨c, hc, holdbind n c hc⟩
  -- entries whose inode is not an old binding of a removed name survive
  have hkeep : ∀ c, (∀ n, n ∈ st1.to_remove → alookup n inode0.children ≠ some c) →
      alookup c st2.files = alookup c st1.files ∧
      alookup c st2.inodes = alookup c st1.inodes := by
    intro c hc
    rw [hst2]
    refine remPhase_untouched st1.to_remove _ c ?_
    intro n hn heq
    obtain ⟨c', hc', hc1⟩ := hrem_old n hn
    have : c' = c := by
      rw [hc1] at heq
      exact Option.some.inj heq
    subst this
    exact hc n hn hc'
  -- fresh inodes survive removal
  have hfresh_keep : ∀ c, s.next_inode < c →
      alookup c st2.files = alookup c st1.files ∧
      alookup c st2.inodes = alookup c st1.inodes := by
    intro c hlt
    refine hkeep c ?_
    intro n hn heq
    have := hinv.children_le ino inode0 n c hino heq
    omega
  -- ino itself survives removal
  have hino_keep : alookup ino st2.files = alookup ino st1.files ∧
      alookup ino st2.inodes = alookup ino st1.inodes := by
    refine hkeep ino ?_
    intro n hn heq
    exact hchild_ne_ino n ino heq rfl
  -- parents of the written-back node
  have hnode_parent : st2.node.parent = inode0.parent := by
    rw [hst2, remPhase_parent, hst1, addPhase_parent]
  -- old entries at indices ≤ s.next_inode are unchanged by the add phase
  have hold1 : ∀ i, i ≤ s.next_inode →
      alookup i st1.files = alookup i s.files ∧
      alookup i st1.inodes = alookup i s.inodes := by
    intro i hi
    have := addPhase_old_entries ino L st0 i hwrap hi
    rw [← hst1] at this
    exact this
  -- a surviving child link of ino classifies as old-kept or fresh
  have hclassify : ∀ n c, alookup n st2.node.children = some c →
      (alookup n inode0.children = some c ∧ c ≤ s.next_inode ∧ n ∉ st1.to_remove) ∨
      (s.next_inode < c ∧ c ≤ st1.next_inode ∧
       alookup n inode0.children = none ∧
       ∃ f, f.name = n ∧ alookup c st1.files = some f ∧
         alookup c st1.inodes = some (Inode.new ino)) := by
    intro n c h
    have hnotmem : n ∉ st1.to_remove := by
      intro hn
      rw [hst2] at h
      rw [remPhase_children_mem st1.to_remove _ n hn] at h
      cases h
    have h1 : alookup n st1.node.children = some c := by
      rw [hst2] at h
      exact (remPhase_sub st1.to_remove _).1 n c h
    have := addPhase_children_complete ino L st0 hb0 hwrap n c (by rw [← hst1]; exact h1)
    rcases this with hold | ⟨hlt, hle, hnone, f, _, hfn, hff, hfi⟩
    · exact Or.inl ⟨hold, hinv.children_le ino inode0 n c hino hold, hnotmem⟩
    · rw [← hst1] at hle hff hfi
      exact Or.inr ⟨hlt, hle, hnone, f, hfn, hff, hfi⟩
  -- classification of final inode-table entries away from ino
  have hinodes2 : ∀ i rec, alookup i st2.inodes = some rec →
      (alookup i s.inodes = some rec ∧ i ≤ s.next_inode) ∨
      (s.next_inode < i ∧ rec = Inode.new ino) := by
    intro i rec h
    have h1 : alookup i st1.inodes = some rec := by
      rw [hst2] at h
      exact (remPhase_sub st1.to_remove _).2.2 i rec h
    have := addPhase_inodes_complete ino L st0 hb0 hwrap i rec (by rw [← hst1]; exact h1)
    rcases this with hold | hfresh
    · exact Or.inl ⟨hold, hinv.inodes_le i (by rw [hold]; rfl)⟩
    · exact Or.inr hfresh
  -- old entries that are still present after removal were never removed
  have hsurvived : ∀ i, i ≤ s.next_inode → (alookup i st2.inodes).isSome →
      alookup i st2.files = alookup i s.files ∧
      alookup i st2.inodes = alookup i s.inodes := by
    intro i hi hsome
    have hkeepi : ∀ n, n ∈ st1.to_remove → alookup n inode0.children ≠ some i := by
      intro n hn heq
      obtain ⟨c', hc', hc1⟩ := hrem_old n hn
      have hceq : c' = i := by
        rw [hc'] at heq
        exact Option.some.inj heq
      subst hceq
      have := remPhase_removed st1.to_remove ⟨st1.node, st1.files, st1.inodes⟩ n c' hn hc1
      rw [← hst2] at this
      rw [this.2] at hsome
      cases hsome
    have h2 := hkeep i hkeepi
    have h1 := hold1 i hi
    exact ⟨by rw [h2.1, h1.1], by rw [h2.2, h1.2]⟩
  have hnext1 : s.next_inode ≤ st1.next_inode := by
    rw [hst1]; rw [hst0next] at hnext; exact hnext.1
  have hnextB : st1.next_inode ≤ s.next_inode + L.length := by
    rw [hst1]; rw [hst0next] at hnext; exact hnext.2
  rw [hstate]
  refine ⟨⟨?_, ?_, ?_, ?_, ?_, ?_, ?_, ?_⟩, by simpa using hnextB⟩
  · -- files_le
    intro i h
    simp only at h ⊢
    cases hf : alookup i st2.files with
    | none => rw [hf] at h; cases h
    | some v =>
      have h1 : alookup i st1.files = some v := by
        rw [hst2] at hf
        exact (remPhase_sub st1.to_remove _).2.1 i v hf
      exact hb1.files_le i (by rw [h1]; rfl)
  · -- inodes_le
    intro i h
    simp only at h ⊢
    rw [alookup_ainsert natLtb ino i] at h
    by_cases heq : i = ino
    · subst heq; omega
    · rw [if_neg heq] at h
      cases hf : alookup i st2.inodes with
      | none => rw [hf] at h; cases h
      | some rec =>
        have h1 : alookup i st1.inodes = some rec := by
          rw [hst2] at hf
          exact (remPhase_sub st1.to_remove _).2.2 i rec hf
        exact hb1.inodes_le i (by rw [h1]; rfl)
  · -- children_le
    intro p prec n c hp hn
    simp only at hp ⊢
    rw [alookup_ainsert natLtb ino p] at hp
    by_cases heq : p = ino
    · rw [if_pos heq] at hp
      cases hp
      rcases hclassify n c hn with ⟨_, hle, _⟩ | ⟨_, hle, _⟩
      · omega
      · exact hle
    · rw [if_neg heq] at hp
      rcases hinodes2 p prec hp with ⟨hold, _⟩ | ⟨_, hfresh⟩
      · have := hinv.children_le p prec n c hold hn
        omega
      · subst hfresh
        cases hn
  · -- parent_le
    intro i rec h
    simp only at h ⊢
    rw [alookup_ainsert natLtb ino i] at h
    by_cases heq : i = ino
    · rw [if_pos heq] at h
      cases h
      rw [hnode_parent]
      have := hinv.parent_le ino inode0 hino
      omega
    · rw [if_neg heq] at h
      rcases hinodes2 i rec h with ⟨hold, _⟩ | ⟨_, hfresh⟩
      · have := hinv.parent_le i rec hold
        omega
      · subst hfresh
        simp only [Inode.new]
        omega
  · -- no_self
    intro i rec h
    simp only at h
    rw [alookup_ainsert natLtb ino i] at h
    by_cases heq : i = ino
    · rw [if_pos heq] at h
      cases h
      rw [hnode_parent, heq]
      exact hinv.no_self ino inode0 hino
    · rw [if_neg heq] at h
      rcases hinodes2 i rec h with ⟨hold, _⟩ | ⟨hlt, hfresh⟩
      · exact hinv.no_self i rec hold
      · subst hfresh
        simp only [Inode.new]
        intro hcon
        subst hcon
        omega
  · -- link_ok
    intro p prec n c hp hn
    simp only at hp ⊢
    rw [alookup_ainsert natLtb ino p] at hp
    by_cases heq : p = ino
    · rw [if_pos heq] at hp
      cases hp
      rw [heq]
      rcases hclassify n c hn with ⟨hold, hle, hnotmem⟩ | ⟨hlt, hle, _, f, hfn, hff, hfi⟩
      · -- an old child of ino that was kept
        obtain ⟨⟨crec, hcrec, hpar⟩, ⟨f, hf, hfname⟩⟩ := hinv.link_ok ino inode0 n c hino hold
        have hcne : c ≠ ino := hchild_ne_ino n c hold
        have hsv := hsurvived c hle ?_
        · constructor
          · refine ⟨crec, ?_, hpar⟩
            rw [alookup_ainsert_ne natLtb hcne, hsv.2]
            exact hcrec
          · exact ⟨f, by rw [hsv.1]; exact hf, hfname⟩
        · -- c's inode entry is still present: it was not removed
          have hkeepc : ∀ m, m ∈ st1.to_remove → alookup m inode0.children ≠ some c := by
            intro m hm hmeq
            have : m = n := hinj0 m n c hmeq hold
            subst this
            exact hnotmem hm
          rw [(hkeep c hkeepc).2, (hold1 c hle).2, hcrec]
          rfl
      · -- a freshly allocated child
        have hcne : c ≠ ino := by omega
        have hfk := hfresh_keep c hlt
        constructor
        · refine ⟨Inode.new ino, ?_, rfl⟩
          rw [alookup_ainsert_ne natLtb hcne, hfk.2]
          exact hfi
        · exact ⟨f, by rw [hfk.1]; exact hff, hfn⟩
    · rw [if_neg heq] at hp
      rcases hinodes2 p prec hp with ⟨hold, hple⟩ | ⟨_, hfresh⟩
      · -- an untouched directory
        obtain ⟨⟨crec, hcrec, hpar⟩, ⟨f, hf, hfname⟩⟩ := hinv.link_ok p prec n c hold hn
        have hcle : c ≤ s.next_inode := hinv.children_le p prec n c hold hn
        have hnotremc : ∀ m, m ∈ st1.to_remove → alookup m inode0.children ≠ some c := by
          intro m hm hmeq
          have := hinv.link_inj ino inode0 m p prec n c hino hmeq hold hn
          exact heq this.1.symm
        have hsv₁ := hkeep c hnotremc
        have hsv₂ := hold1 c hcle
        by_cases hceq : c = ino
        · subst hceq
          constructor
          · refine ⟨st2.node, by rw [alookup_ainsert_self], ?_⟩
            rw [hnode_parent]
            rw [hino] at hcrec
            cases hcrec
            exact hpar
          · refine ⟨f, ?_, hfname⟩
            rw [hsv₁.1, hsv₂.1]
            exact hf
        · constructor
          · refine ⟨crec, ?_, hpar⟩
            rw [alookup_ainsert_ne natLtb hceq, hsv₁.2, hsv₂.2]
            exact hcrec
          · refine ⟨f, ?_, hfname⟩
            rw [hsv₁.1, hsv₂.1]
            exact hf
      · subst hfresh
        cases hn
  · -- link_inj
    intro p₁ prec₁ n₁ p₂ prec₂ n₂ c hp₁ hn₁ hp₂ hn₂
    simp only at hp₁ hp₂
    rw [alookup_ainsert natLtb ino p₁] at hp₁
    rw [alookup_ainsert natLtb ino p₂] at hp₂
    -- classify each link: an s-link at the same (p, n), or a fresh link of ino
    have hclass : ∀ p prec n, (if p = ino then some st2.node else alookup p st2.inodes) = some prec →
        alookup n prec.children = some c →
        (∃ prec₀, alookup p s.inodes = some prec₀ ∧ alookup n prec₀.children = some c ∧
          c ≤ s.next_inode) ∨
        (p = ino ∧ s.next_inode < c ∧ alookup n st1.node.children = some c) := by
      intro p prec n hp hn
      by_cases heq : p = ino
      · subst heq
        rw [if_pos rfl] at hp
        cases hp
        rcases hclassify n c hn with ⟨hold, hle, _⟩ | ⟨hlt, _, _, _, _, _, _⟩
        · exact Or.inl ⟨inode0, hino, hold, hle⟩
        · right
          refine ⟨rfl, hlt, ?_⟩
          rw [hst2] at hn
          exact (remPhase_sub st1.to_remove _).1 n c hn
      · rw [if_neg heq] at hp
        rcases hinodes2 p prec hp with ⟨hold, _⟩ | ⟨_, hfresh⟩
        · exact Or.inl ⟨prec, hold, hn, hinv.children_le p prec n c hold hn⟩
        · subst hfresh
          cases hn
    rcases hclass p₁ prec₁ n₁ hp₁ hn₁ with ⟨q₁, hq₁, hb₁, hle₁⟩ | ⟨hp₁', hlt₁, hb₁⟩ <;>
      rcases hclass p₂ prec₂ n₂ hp₂ hn₂ with ⟨q₂, hq₂, hb₂, hle₂⟩ | ⟨hp₂', hlt₂, hb₂⟩
    · exact hinv.link_inj p₁ q₁ n₁ p₂ q₂ n₂ c hq₁ hb₁ hq₂ hb₂
    · omega
    · omega
    · refine ⟨by rw [hp₁', hp₂'], ?_⟩
      exact h1inj n₁ n₂ c (by rw [← hst1]; exact hb₁) (by rw [← hst1]; exact hb₂)
  · -- parent_link
    intro i rec prec hi hq hprec
    simp only at hi hprec ⊢
    rw [alookup_ainsert natLtb ino i] at hi
    by_cases heq : i = ino
    · rw [if_pos heq] at hi
      cases hi
      rw [heq]
      rw [hnode_parent] at hq hprec
      have hqne : inode0.parent ≠ ino := hinv.no_self ino inode0 hino
      rw [alookup_ainsert natLtb ino inode0.parent, if_neg hqne] at hprec
      rcases hinodes2 inode0.parent prec hprec with ⟨hold, _⟩ | ⟨hlt, _⟩
      · obtain ⟨f, hf, hlink⟩ := hinv.parent_link ino inode0 prec hino hq hold
        refine ⟨f, ?_, hlink⟩
        rw [hino_keep.1, (hold1 ino hinoLE).1]
        exact hf
      · have := hinv.parent_le ino inode0 hino
        omega
    · rw [if_neg heq] at hi
      rcases hinodes2 i rec hi with ⟨hold, hile⟩ | ⟨hlt, hfresh⟩
      · -- an old inode that survived
        have hq0 := hinv.parent_le i rec hold
        by_cases hqino : rec.parent = ino
        · -- child of the reconciled directory
          rw [hqino] at hprec
          rw [alookup_ainsert natLtb ino ino, if_pos rfl] at hprec
          cases hprec
          obtain ⟨f, hf, hlink⟩ := hinv.parent_link i rec inode0 hold hq (by rw [hqino]; exact hino)
          have hnotrem : f.name ∉ st1.to_remove := by
            intro hmem
            have := remPhase_removed st1.to_remove ⟨st1.node, st1.files, st1.inodes⟩
              f.name i hmem (holdbind f.name i hlink)
            rw [← hst2] at this
            rw [this.2] at hi
            cases hi
          refine ⟨f, ?_, ?_⟩
          · rw [(hsurvived i hile (by rw [hi]; rfl)).1]
            exact hf
          · rw [hst2, remPhase_children_not_mem st1.to_remove _ f.name
              (fun m hm hmeq => hnotrem (hmeq ▸ hm))]
            exact holdbind f.name i hlink
        · -- child of an untouched directory
          rw [alookup_ainsert natLtb ino rec.parent, if_neg hqino] at hprec
          rcases hinodes2 rec.parent prec hprec with ⟨holdq, _⟩ | ⟨hltq, _⟩
          · obtain ⟨f, hf, hlink⟩ := hinv.parent_link i rec prec hold hq holdq
            refine ⟨f, ?_, hlink⟩
            rw [(hsurvived i hile (by rw [hi]; rfl)).1]
            exact hf
          · omega
      · -- a freshly allocated inode: its parent is ino
        subst hfresh
        simp only [Inode.new] at hq hprec ⊢
        rw [alookup_ainsert natLtb ino ino, if_pos rfl] at hprec
        cases hprec
        have hsome1 : (alookup i st1.inodes).isSome := by
          have h1 : alookup i st1.inodes =
              some (Inode.new ino) := by
            rw [hst2] at hi
            exact (remPhase_sub st1.to_remove _).2.2 i _ hi
          rw [h1]; rfl
        have hinvent := addPhase_fresh_inventory ino L st0 hb0 hwrap i (by rw [← hst1]; exact hsome1)
        rcases hinvent with hsome0 | ⟨_, f, hch, hfl, hnone⟩
        · have := hinv.inodes_le i hsome0
          omega
        · rw [← hst1] at hch hfl
          have hnotrem : f.name ∉ st1.to_remove := by
            intro hmem
            obtain ⟨c', hc', _⟩ := hrem_old f.name hmem
            rw [hnone] at hc'
            cases hc'
          refine ⟨f, ?_, ?_⟩
          · rw [(hfresh_keep i hlt).1]
            exact hfl
          · rw [hst2, remPhase_children_not_mem st1.to_remove _ f.name
              (fun m hm hmeq => hnotrem (hmeq ▸ hm))]
            exact hch

end AliyunFuse

namespace AliyunFuse

/-! ## Claim C3 — traces of FUSE operations

Each handler consults the drive at most once per endpoint, so an
operation is recorded together with the constant responses the network
served to it. -/

/-- One FUSE operation with its recorded network responses. -/
inductive Op
  | initOp (quota : Option (Nat × Nat))
  | lookupOp (parent : Nat) (name : String) (listing : Option (List AliyunFile))
  | readdirOp (ino : Nat) (offset : Int) (listing : Option (List AliyunFile))
  | getattrOp (ino : Nat)
  | openOp (ino : Nat)
  | readOp (ino fh : Nat) (offset : Int) (size : Nat)
      (url : Option String) (data : Option (List Nat))
  | releaseOp (fh : Nat)
  deriving DecidableEq, Repr

/-- The constant oracle serving an operation's recorded responses. -/
def opOracle : Op → DriveOracle
  | .initOp q => ⟨fun _ => none, fun _ _ _ => none, fun _ => none, q⟩
  | .lookupOp _ _ L => ⟨fun _ => none, fun _ _ _ => none, fun _ => L, none⟩
  | .readdirOp _ _ L => ⟨fun _ => none, fun _ _ _ => none, fun _ => L, none⟩
  | .readOp _ _ _ _ url data => ⟨fun _ => url, fun _ _ _ => data, fun _ => none, none⟩
  | _ => ⟨fun _ => none, fun _ _ _ => none, fun _ => none, none⟩

/-- The store after one operation (the state component of each handler). -/
def applyOp (s : FSState) (op : Op) : FSState :=
  match op with
  | .initOp _ => (s.init (opOracle op)).2.1
  | .lookupOp parent name _ => (s.lookup (opOracle op) parent name).2.1
  | .readdirOp ino offset _ => (s.readdirOuter (opOracle op) ino offset).2.1
  | .getattrOp _ => s
  | .openOp ino => (s.openFile ino).2
  | .readOp ino fh offset size _ _ => (s.read (opOracle op) ino fh offset size).2.1
  | .releaseOp fh => s.releaseFile fh

/-- The store after a whole trace. -/
def applyOps (s : FSState) (ops : List Op) : FSState :=
  ops.foldl applyOp s

/-- How many fresh inodes the operation can allocate: the length of the
directory listing it was served, if any. -/
def listedOf : Op → Nat
  | .lookupOp _ _ (some L) => L.length
  | .readdirOp _ _ (some L) => L.length
  | _ => 0

def Op.isInit : Op → Bool
  | .initOp _ => true
  | _ => false

/-- `TreeInv` only concerns `files`, `inodes` and `next_inode`. -/
theorem TreeInv_frame {s s' : FSState} (h : TreeInv s)
    (hf : s'.files = s.files) (hi : s'.inodes = s.inodes)
    (hn : s'.next_inode = s.next_inode) : TreeInv s' := by
  constructor
  · intro i hsome; rw [hf] at hsome; rw [hn]; exact h.files_le i hsome
  · intro i hsome; rw [hi] at hsome; rw [hn]; exact h.inodes_le i hsome
  · intro p prec n c hp hc; rw [hi] at hp; rw [hn]; exact h.children_le p prec n c hp hc
  · intro i rec hrec; rw [hi] at hrec; rw [hn]; exact h.parent_le i rec hrec
  · intro i rec hrec; rw [hi] at hrec; exact h.no_self i rec hrec
  · intro p prec n c hp hc; rw [hi] at hp; rw [hf, hi]; exact h.link_ok p prec n c hp hc
  · intro p₁ prec₁ n₁ p₂ prec₂ n₂ c h₁ hb₁ h₂ hb₂
    rw [hi] at h₁ h₂
    exact h.link_inj p₁ prec₁ n₁ p₂ prec₂ n₂ c h₁ hb₁ h₂ hb₂
  · intro i rec prec hrec hq hprec
    rw [hi] at hrec hprec; rw [hf]
    exact h.parent_link i rec prec hrec hq hprec

/-- The post-state of `readdir` is either the pre-state or a
reconciliation of some present directory with a served listing. -/
theorem readdir_state_cases (s : FSState) (o : DriveOracle) (ino : Nat) (offset : Int) :
    (s.readdir o ino offset).2.1 = s ∨
    ∃ inode0 file L, alookup ino s.inodes = some inode0 ∧
      alookup ino s.files = some file ∧ o.listAll file.id = some L ∧
      (s.readdir o ino offset).2.1 = reconcileState s ino inode0 L := by
  cases hino : alookup ino s.inodes with
  | none => exact Or.inl (by simp only [FSState.readdir, hino])
  | some inode0 =>
    by_cases hoff : offset = 0
    · subst hoff
      cases hfile : alookup ino s.files with
      | none =>
        refine Or.inl ?_
        simp only [FSState.readdir, hino, hfile]
        rw [if_pos trivial]
      | some file =>
        cases hlist : o.listAll file.id with
        | none =>
          refine Or.inl ?_
          simp only [FSState.readdir, hino, hfile, hlist]
          rw [if_pos trivial]
        | some L =>
          refine Or.inr ⟨inode0, file, L, rfl, rfl, hlist, ?_⟩
          simp only [FSState.readdir, hino, hfile, hlist]
          rw [if_pos trivial]
          split <;> rfl
    · refine Or.inl ?_
      simp only [FSState.readdir, hino]
      rw [if_neg hoff]
      split <;> rfl

/-- `Filesystem::readdir` mutates the store exactly as the inner
`readdir` does. -/
theorem readdirOuter_state (s : FSState) (o : DriveOracle) (ino : Nat) (offset : Int) :
    (s.readdirOuter o ino offset).2.1 = (s.readdir o ino offset).2.1 := by
  unfold FSState.readdirOuter
  rcases hr : s.readdir o ino offset with ⟨r, s', evs⟩
  cases r <;> rfl

/-- `lookup` either leaves the store alone or mutates it exactly as
`readdir(parent, 0)` does. -/
theorem lookup_state_cases (s : FSState) (o : DriveOracle) (parent : Nat) (name : String) :
    (s.lookup o parent name).2.1 = s ∨
    (s.lookup o parent name).2.1 = (s.readdir o parent 0).2.1 := by
  cases hp : alookup parent s.inodes with
  | none => exact Or.inl (by simp only [FSState.lookup, hp])
  | some pinode =>
    by_cases hc : pinode.children = []
    · refine Or.inr ?_
      simp only [FSState.lookup, hp]
      rw [if_pos hc]
      rcases hr : s.readdir o parent 0 with ⟨r, s', evs⟩
      cases r with
      | error e => rfl
      | ok v =>
        split
        · rename_i e s₂ evs₂ heq
          cases heq
        · rename_i a s₂ evs₂ heq
          injection heq with h1 h23
          injection h23 with h2 h3
          subst h2
          split <;> rfl
    · refine Or.inl ?_
      simp only [FSState.lookup, hp]
      rw [if_neg hc]

end AliyunFuse

namespace AliyunFuse

/-- `read` only touches the file cache. -/
theorem read_state_frame (s : FSState) (o : DriveOracle) (ino fh : Nat)
    (offset : Int) (size : Nat) :
    (s.read o ino fh offset size).2.1.files = s.files ∧
    (s.read o ino fh offset size).2.1.inodes = s.inodes ∧
    (s.read o ino fh offset size).2.1.next_inode = s.next_inode := by
  cases hf : alookup ino s.files with
  | none => exact ⟨by simp only [FSState.read, hf], by simp only [FSState.read, hf],
      by simp only [FSState.read, hf]⟩
  | some file =>
    refine ⟨?_, ?_, ?_⟩ <;> (simp only [FSState.read, hf]; split <;> rfl)

/-- `open` only touches the file cache and the handle counter. -/
theorem open_state_frame (s : FSState) (ino : Nat) :
    (s.openFile ino).2.files = s.files ∧
    (s.openFile ino).2.inodes = s.inodes ∧
    (s.openFile ino).2.next_inode = s.next_inode := by
  cases hf : alookup ino s.files with
  | none => exact ⟨by simp only [FSState.openFile, hf], by simp only [FSState.openFile, hf],
      by simp only [FSState.openFile, hf]⟩
  | some file =>
    exact ⟨by simp only [FSState.openFile, FSState.nextFh, hf],
      by simp only [FSState.openFile, FSState.nextFh, hf],
      by simp only [FSState.openFile, FSState.nextFh, hf]⟩

/-- `readdir` preserves the tree invariant; the inode counter never
decreases and grows by at most the served listing's length `N`. -/
theorem readdir_preserves_TreeInv (s : FSState) (o : DriveOracle) (ino : Nat)
    (offset : Int) (N : Nat)
    (hinv : TreeInv s)
    (hN : ∀ fid L, o.listAll fid = some L → L.length ≤ N)
    (hwrap : s.next_inode + N < 2 ^ 64) :
    TreeInv (s.readdir o ino offset).2.1 ∧
    s.next_inode ≤ (s.readdir o ino offset).2.1.next_inode ∧
    (s.readdir o ino offset).2.1.next_inode ≤ s.next_inode + N := by
  rcases readdir_state_cases s o ino offset with h | ⟨inode0, file, L, hino, hfile, hlist, h⟩
  · rw [h]; exact ⟨hinv, le_refl _, Nat.le_add_right _ _⟩
  · rw [h]
    have hLN := hN file.id L hlist
    have hwrap2 : s.next_inode + L.length < 2 ^ 64 := by omega
    have hmain := reconcile_preserves_TreeInv s ino inode0 L hino hinv hwrap2
    have h2 := hmain.2
    have hlow : s.next_inode ≤ (reconcileState s ino inode0 L).next_inode :=
      (addPhase_next ino L ⟨inode0, s.files, s.inodes, s.next_inode, akeys inode0.children⟩ hwrap2).1
    exact ⟨hmain.1, hlow, by omega⟩

/-- Every non-`init` operation preserves the tree invariant; the inode
counter never decreases and grows by at most the operation's listing
length. -/
theorem applyOp_preserves (s : FSState) (op : Op)
    (hni : op.isInit = false) (hinv : TreeInv s)
    (hwrap : s.next_inode + listedOf op < 2 ^ 64) :
    TreeInv (applyOp s op) ∧ s.next_inode ≤ (applyOp s op).next_inode ∧
    (applyOp s op).next_inode ≤ s.next_inode + listedOf op := by
  cases op with
  | initOp q => simp [Op.isInit] at hni
  | lookupOp parent name L =>
    have hN : ∀ fid Lx, (opOracle (.lookupOp parent name L)).listAll fid = some Lx →
        Lx.length ≤ listedOf (.lookupOp parent name L) := by
      intro fid Lx hx
      cases L with
      | none => cases hx
      | some L0 =>
        simp only [opOracle] at hx
        cases hx
        exact le_refl _
    have hrd := readdir_preserves_TreeInv s (opOracle (.lookupOp parent name L)) parent 0
      (listedOf (.lookupOp parent name L)) hinv hN hwrap
    have happ : applyOp s (.lookupOp parent name L) =
        (s.lookup (opOracle (.lookupOp parent name L)) parent name).2.1 := rfl
    rw [happ]
    rcases lookup_state_cases s (opOracle (.lookupOp parent name L)) parent name with h | h
    · rw [h]; exact ⟨hinv, le_refl _, Nat.le_add_right _ _⟩
    · rw [h]; exact hrd
  | readdirOp ino offset L =>
    have hN : ∀ fid Lx, (opOracle (.readdirOp ino offset L)).listAll fid = some Lx →
        Lx.length ≤ listedOf (.readdirOp ino offset L) := by
      intro fid Lx hx
      cases L with
      | none => cases hx
      | some L0 =>
        simp only [opOracle] at hx
        cases hx
        exact le_refl _
    have hrd := readdir_preserves_TreeInv s (opOracle (.readdirOp ino offset L)) ino offset
      (listedOf (.readdirOp ino offset L)) hinv hN hwrap
    have happ : applyOp s (.readdirOp ino offset L) =
        (s.readdir (opOracle (.readdirOp ino offset L)) ino offset).2.1 := by
      show (s.readdirOuter (opOracle (.readdirOp ino offset L)) ino offset).2.1 = _
      exact readdirOuter_state s _ ino offset
    rw [happ]
    exact hrd
  | getattrOp ino => exact ⟨hinv, le_refl _, Nat.le_add_right _ _⟩
  | openOp ino =>
    have hfr := open_state_frame s ino
    have hnx : (applyOp s (Op.openOp ino)).next_inode = s.next_inode := hfr.2.2
    exact ⟨TreeInv_frame hinv hfr.1 hfr.2.1 hfr.2.2, le_of_eq hnx.symm, by omega⟩
  | readOp ino fh offset size url data =>
    have hfr := read_state_frame s (opOracle (.readOp ino fh offset size url data)) ino fh offset size
    have hnx : (applyOp s (Op.readOp ino fh offset size url data)).next_inode = s.next_inode :=
      hfr.2.2
    exact ⟨TreeInv_frame hinv hfr.1 hfr.2.1 hfr.2.2, le_of_eq hnx.symm, by omega⟩
  | releaseOp fh =>
    exact ⟨TreeInv_frame hinv rfl rfl rfl, le_refl _, Nat.le_add_right _ _⟩

/-- Trace induction: a trace of non-`init` operations whose served
listings cannot wrap the inode counter preserves the tree invariant. -/
theorem applyOps_preserves : ∀ (ops : List Op) (s : FSState),
    (∀ op ∈ ops, op.isInit = false) → TreeInv s →
    s.next_inode + (ops.map listedOf).sum < 2 ^ 64 →
    TreeInv (applyOps s ops) ∧
    (applyOps s ops).next_inode ≤ s.next_inode + (ops.map listedOf).sum := by
  intro ops
  induction ops with
  | nil =>
    intro s hni hinv hwrap
    exact ⟨hinv, Nat.le_add_right _ _⟩
  | cons op t ih =>
    intro s hni hinv hwrap
    have hsum : ((op :: t).map listedOf).sum = listedOf op + (t.map listedOf).sum := by
      simp
    have hfold : applyOps s (op :: t) = applyOps (applyOp s op) t := rfl
    rw [hfold]
    rw [hsum] at hwrap ⊢
    have h1 := applyOp_preserves s op (hni op (List.mem_cons_self op t)) hinv (by omega)
    have h2 := ih (applyOp s op) (fun o2 ho => hni o2 (List.mem_cons_of_mem op ho)) h1.1
      (by omega)
    exact ⟨h2.1, by omega⟩

end AliyunFuse

namespace AliyunFuse

/-- The tree invariant of the empty store. -/
theorem TreeInv_empty (fc : FileCache) (ni nfh : Nat) :
    TreeInv { file_cache := fc, files := [], inodes := [], next_inode := ni,
              next_fh := nfh } := by
  constructor
  · intro i hsome
    have h : (none : Option AliyunFile).isSome = true := hsome
    simp at h
  · intro i hsome
    have h : (none : Option Inode).isSome = true := hsome
    simp at h
  · intro p prec n c hp hc
    have h : (none : Option Inode) = some prec := hp
    cases h
  · intro i rec h0
    have h : (none : Option Inode) = some rec := h0
    cases h
  · intro i rec h0
    have h : (none : Option Inode) = some rec := h0
    cases h
  · intro p prec n c hp hc
    have h : (none : Option Inode) = some prec := hp
    cases h
  · intro p₁ prec₁ n₁ p₂ prec₂ n₂ c h₁ hb₁ h₂ hb₂
    have h : (none : Option Inode) = some prec₁ := h₁
    cases h
  · intro i rec prec h0 hq hprec
    have h : (none : Option Inode) = some rec := h0
    cases h

/-- The tree invariant of a root-only store (`next_inode = 1`, the root
inode with `parent = 0` and no children, one file record at inode 1). -/
theorem TreeInv_root (fc : FileCache) (f : AliyunFile) (nfh : Nat) :
    TreeInv { file_cache := fc, files := [(1, f)], inodes := [(1, Inode.new 0)],
              next_inode := 1, next_fh := nfh } := by
  have hyes : ∀ (i : Nat) (rec : Inode), alookup i [(1, Inode.new 0)] = some rec →
      i = 1 ∧ rec = Inode.new 0 := by
    intro i rec h
    by_cases hi : i = 1
    · subst hi
      have h2 : some (Inode.new 0) = some rec := h
      exact ⟨rfl, (Option.some.inj h2).symm⟩
    · simp [alookup, hi] at h
  have hfyes : ∀ (i : Nat) (g : AliyunFile), alookup i [(1, f)] = some g →
      i = 1 ∧ g = f := by
    intro i g h
    by_cases hi : i = 1
    · subst hi
      have h2 : some f = some g := h
      exact ⟨rfl, (Option.some.inj h2).symm⟩
    · simp [alookup, hi] at h
  constructor
  · intro i hsome
    show i ≤ 1
    cases hv : alookup i [(1, f)] with
    | none =>
      have h : (alookup i [(1, f)]).isSome = true := hsome
      rw [hv] at h
      simp at h
    | some g => exact le_of_eq (hfyes i g hv).1
  · intro i hsome
    show i ≤ 1
    cases hv : alookup i [(1, Inode.new 0)] with
    | none =>
      have h : (alookup i [(1, Inode.new 0)]).isSome = true := hsome
      rw [hv] at h
      simp at h
    | some rec => exact le_of_eq (hyes i rec hv).1
  · intro p prec n c hp hc
    obtain ⟨hp1, hprec⟩ := hyes p prec hp
    rw [hprec] at hc
    have h2 : (none : Option Nat) = some c := hc
    cases h2
  · intro i rec h
    obtain ⟨hi1, hrec⟩ := hyes i rec h
    rw [hrec]
    exact Nat.zero_le _
  · intro i rec h
    obtain ⟨hi1, hrec⟩ := hyes i rec h
    rw [hrec, hi1]
    decide
  · intro p prec n c hp hc
    obtain ⟨hp1, hprec⟩ := hyes p prec hp
    rw [hprec] at hc
    have h2 : (none : Option Nat) = some c := hc
    cases h2
  · intro p₁ prec₁ n₁ p₂ prec₂ n₂ c h₁ hb₁ h₂ hb₂
    obtain ⟨hp1, hprec⟩ := hyes p₁ prec₁ h₁
    rw [hprec] at hb₁
    have h2 : (none : Option Nat) = some c := hb₁
    cases h2
  · intro i rec prec h hq hprec
    obtain ⟨hi1, hrec⟩ := hyes i rec h
    rw [hrec] at hq
    exact absurd rfl hq

/-- After `init` on a fresh store the tree invariant holds and the inode
counter is still `1`. -/
theorem init_new_inv (rbs : Nat) (q : Option (Nat × Nat)) :
    TreeInv (applyOp (FSState.new rbs) (Op.initOp q)) ∧
    (applyOp (FSState.new rbs) (Op.initOp q)).next_inode = 1 := by
  cases q with
  | none =>
    have h : applyOp (FSState.new rbs) (Op.initOp none) = FSState.new rbs := rfl
    rw [h]
    exact ⟨TreeInv_empty _ _ _, rfl⟩
  | some p =>
    have h : applyOp (FSState.new rbs) (Op.initOp (some p)) =
        { file_cache := { read_buffer_size := rbs, cache := [] },
          files := [(1, { AliyunFile.newRoot with size := p.1 })],
          inodes := [(1, Inode.new 0)], next_inode := 1, next_fh := 2 } := rfl
    rw [h]
    exact ⟨TreeInv_root _ _ _, rfl⟩

end AliyunFuse

namespace AliyunFuse

/-- **C3 (amended)**: after `init` on a fresh mount, every trace of
`lookup`, `readdir`, `getattr`, `open`, `read` and `release` operations
whose served directory listings cannot wrap the 64-bit inode counter
reaches a store in which every inode `i` with `parent_inode = p ≠ 0`
*whose parent `p` is still present* is linked from it: the parent's
`children` map sends the name of `i`'s file record to `i`. (As stated,
with "in particular p itself is still present", the claim is false: see
the counterexample, where a re-listing of the grandparent removes `p`
but orphans `i`.) -/
theorem c3_tree_invariant (rbs : Nat) (q : Option (Nat × Nat)) (ops : List Op)
    (hni : ∀ op ∈ ops, op.isInit = false)
    (hwrap : 1 + (ops.map listedOf).sum < 2 ^ 64) :
    ∀ i rec prec,
      alookup i (applyOps (applyOp (FSState.new rbs) (Op.initOp q)) ops).inodes = some rec →
      rec.parent ≠ 0 →
      alookup rec.parent (applyOps (applyOp (FSState.new rbs) (Op.initOp q)) ops).inodes =
        some prec →
      ∃ f, alookup i (applyOps (applyOp (FSState.new rbs) (Op.initOp q)) ops).files = some f ∧
        alookup f.name prec.children = some i := by
  have h0 := init_new_inv rbs q
  have h := applyOps_preserves ops (applyOp (FSState.new rbs) (Op.initOp q)) hni h0.1
    (by rw [h0.2]; exact hwrap)
  exact h.1.parent_link

def c3fb : AliyunFile := { id := "idb", name := "b", type := .folder, size := 0 }

def c3fc : AliyunFile := { id := "idc", name := "c", type := .file, size := 5 }

def c3Ops : List Op := [Op.readdirOp 1 0 (some [c3fb])]

/-- Concrete instance of `c3_tree_invariant`: after `init` and one
`readdir` of the root listing a single folder `b`, the fresh inode `2`
(parent 1) is linked from the root's `children` map under the name `b`. -/
theorem c3_tree_invariant_witness :
    ∃ f, alookup 2 (applyOps (applyOp (FSState.new 1024) (Op.initOp (some (0, 0)))) c3Ops).files =
        some f ∧
      alookup f.name (Inode.mk [("b", 2)] 0).children = some 2 :=
  c3_tree_invariant 1024 (some (0, 0)) c3Ops (by decide) (by decide) 2 (Inode.new 1)
    (Inode.mk [("b", 2)] 0) (by decide) (by decide) (by decide)

def c3BadOps : List Op :=
  [Op.initOp (some (0, 0)),
   Op.readdirOp 1 0 (some [c3fb]),
   Op.readdirOp 2 0 (some [c3fc]),
   Op.readdirOp 1 0 (some [])]

/-- **C3 refuted as stated**: a reachable state (`init`, `readdir` of
root listing folder `b`, `readdir` of `b` listing file `c`, `readdir` of
root with an empty listing) holds inode `3` with `parent_inode = 2`
while inode `2` itself has been removed from the store, so `3` is not a
value in any present inode's `children` map — contradicting the claim's
"in particular p itself is still present". -/
theorem c3_counterexample :
    alookup 3 (applyOps (FSState.new 1024) c3BadOps).inodes = some (Inode.new 2) ∧
    (Inode.new 2).parent ≠ 0 ∧
    alookup 2 (applyOps (FSState.new 1024) c3BadOps).inodes = none := by
  decide

end AliyunFuse
